import Mathlib

/-!
Verification of the layout and interaction engine of the memory-map
generator (src/main.py).  The Python helpers (`validate_tree`, `flatten`)
and the embedded JavaScript engine (`gapsFromChildren`,
`computeHeightsToFit`, the expand/collapse handlers and the boundary
marker renderer) are shallowly embedded below.  Numbers are modelled as
unbounded integers (`Int`): all arithmetic performed by the source on the
relevant paths is exact integer arithmetic.  Python/JS strings are
modelled as `List Char`.
-/

set_option maxRecDepth 10000

namespace MemMap

/-! ## Space allocator (`computeHeightsToFit`, src/main.py lines 456-507)

The allocator reads exactly two fields of each display item: `size` and
the `_isGap` flag. -/

structure HItem where
  size : Int
  isGap : Bool
  deriving Repr, DecidableEq

/-- `gapCount = isGap.filter(Boolean).length`. -/
def gapCountOf (items : List HItem) : Nat :=
  (items.filter (fun it => it.isGap)).length

/-- `fixedGap = gapCount * gapPx`. -/
def fixedGapOf (items : List HItem) (gapPx : Int) : Int :=
  (gapCountOf items : Int) * gapPx

/-- `nonGapBudget = Math.max(0, budgetPx - fixedGap)`. -/
def nonGapBudgetOf (items : List HItem) (budgetPx gapPx : Int) : Int :=
  max 0 (budgetPx - fixedGapOf items gapPx)

/-- `sizes = items.map(it => (it._isGap ? 0 : Math.max(it.size, 1)))`. -/
def sizeOfItem (it : HItem) : Int :=
  if it.isGap then 0 else max it.size 1

/-- `sumSize = sizes.reduce((a,b)=>a+b, 0) || 1` (a zero sum is replaced
by 1; the sum is never negative because every entry is 0 or ≥ 1). -/
def sumSizeOf (items : List HItem) : Int :=
  if (items.map sizeOfItem).sum = 0 then 1 else (items.map sizeOfItem).sum

/-- First `heights` map: a gap gets `gapPx`, a non-gap item gets
`Math.floor((sizes[i] / sumSize) * nonGapBudget)`.  For integers
`floor((a/c)*b) = (a*b).ediv c` (c > 0), which is how the float
expression of the source is embedded. -/
def rawH (items : List HItem) (budgetPx gapPx : Int) (it : HItem) : Int :=
  if it.isGap then gapPx
  else Int.ediv (sizeOfItem it * nonGapBudgetOf items budgetPx gapPx) (sumSizeOf items)

/-- Second map: non-gap heights are clamped with
`Math.max(minPx, Math.min(maxPx, h))`. -/
def clampH (items : List HItem) (minPx maxPx budgetPx gapPx : Int) (it : HItem) : Int :=
  if it.isGap then rawH items budgetPx gapPx it
  else max minPx (min maxPx (rawH items budgetPx gapPx it))

/-- The mutable loop state: for each item its `isGap` flag (never
mutated) and its current height. -/
def initState (items : List HItem) (minPx maxPx budgetPx gapPx : Int) : List (Bool × Int) :=
  items.map (fun it => (it.isGap, clampH items minPx maxPx budgetPx gapPx it))

/-- `delta = budgetPx - totalH()` before the redistribution loop. -/
def initDelta (items : List HItem) (minPx maxPx budgetPx gapPx : Int) : Int :=
  budgetPx - ((initState items minPx maxPx budgetPx gapPx).map Prod.snd).sum

/-- `growable()` of the source: the number of indices with
`!isGap[i] && h < maxPx`.  (The source materialises the index list; only
its length and the membership condition are used.) -/
def growCount (maxPx : Int) (hs : List (Bool × Int)) : Nat :=
  hs.countP (fun p => decide (p.1 = false ∧ p.2 < maxPx))

/-- `shrinkable()` of the source: indices with `!isGap[i] && h > minPx`. -/
def shrinkCount (minPx : Int) (hs : List (Bool × Int)) : Nat :=
  hs.countP (fun p => decide (p.1 = false ∧ minPx < p.2))

/-- One pass of the grow branch (`delta > 0`): every index of the
growable set receives `add = Math.min(step, maxPx - heights[i], delta)`.
The source recomputes nothing during the pass and breaks out as soon as
`delta` hits 0; since for the remaining growable indices
`min step (min cap 0) = 0`, the break is a no-op and the pass is embedded
as a single left-to-right traversal. -/
def growPass (maxPx step : Int) : List (Bool × Int) → Int → List (Bool × Int) × Int
  | [], d => ([], d)
  | p :: rest, d =>
    if p.1 = false ∧ p.2 < maxPx then
      let add := min step (min (maxPx - p.2) d)
      let r := growPass maxPx step rest (d - add)
      ((p.1, p.2 + add) :: r.1, r.2)
    else
      let r := growPass maxPx step rest d
      (p :: r.1, r.2)

/-- One pass of the shrink branch (`delta < 0`), carrying
`need = -delta`: every shrinkable index gives up
`sub = Math.min(step, heights[i] - minPx, need)`. -/
def shrinkPass (minPx step : Int) : List (Bool × Int) → Int → List (Bool × Int) × Int
  | [], need => ([], need)
  | p :: rest, need =>
    if p.1 = false ∧ minPx < p.2 then
      let sub := min step (min (p.2 - minPx) need)
      let r := shrinkPass minPx step rest (need - sub)
      ((p.1, p.2 - sub) :: r.1, r.2)
    else
      let r := shrinkPass minPx step rest need
      (p :: r.1, r.2)

/-- The `while (delta !== 0 && guard < 2000)` loop.  `fuel` is the number
of iterations the guard still allows; the result carries the final state,
the final `delta` and the remaining fuel (positive iff the loop exited
through its own `delta`/dead-end conditions rather than the guard). -/
def redistribute (minPx maxPx : Int) : Nat → List (Bool × Int) → Int → List (Bool × Int) × Int × Nat
  | 0, hs, d => (hs, d, 0)
  | fuel+1, hs, d =>
    if d = 0 then (hs, d, fuel+1)
    else if 0 < d then
      let n := growCount maxPx hs
      if n = 0 then (hs, d, fuel+1)
      else
        let step := max 1 (Int.ediv d (n : Int))
        let r := growPass maxPx step hs d
        redistribute minPx maxPx fuel r.1 r.2
    else
      let n := shrinkCount minPx hs
      if n = 0 then (hs, d, fuel+1)
      else
        let step := max 1 (Int.ediv (-d) (n : Int))
        let r := shrinkPass minPx step hs (-d)
        redistribute minPx maxPx fuel r.1 (-r.2)

/-- `computeHeightsToFit(items, minPx, maxPx, budgetPx, gapPx).heights`.
An empty item list returns `{heights: [], total: 0}` up front. -/
def computeHeightsToFit (items : List HItem) (minPx maxPx budgetPx gapPx : Int) : List Int :=
  if items.isEmpty then []
  else
    ((redistribute minPx maxPx 2000
        (initState items minPx maxPx budgetPx gapPx)
        (initDelta items minPx maxPx budgetPx gapPx)).1).map Prod.snd

/-- `computeCompactHeights` (src/main.py lines 509-513): every gap gets
`gapPx`, every non-gap item gets `minPx`. -/
def computeCompactHeights (items : List HItem) (minPx gapPx : Int) : List Int :=
  items.map (fun it => if it.isGap then gapPx else minPx)

/-- Number of non-gap items. -/
def nonGapCountOf (items : List HItem) : Nat :=
  (items.filter (fun it => !it.isGap)).length

/-! ## Gap synthesizer (`gapsFromChildren`, src/main.py lines 431-447)

The JS records handled here (flattened nodes and synthesized gaps) carry
`id`, `name`, `start`, `end`, `size` and the `_isGap` marker.  `end` is a
Lean keyword, so the field is called `stop`.  JS strings are modelled as
`List Char`; the decimal rendering of the cursor used in gap ids
(`root.id + "/gap@" + cur`) is reproduced below. -/

/-- Decimal digits of `n`, least significant first; `fuel ≥ n` makes the
recursion structural while never being exhausted. -/
def decDigitsRev : Nat → Nat → List Nat
  | 0, _ => []
  | f + 1, n => if n = 0 then [] else n % 10 :: decDigitsRev f (n / 10)

def decDigitChar (d : Nat) : Char :=
  Char.ofNat (48 + d)

/-- Decimal rendering of a natural number, as JS string conversion does. -/
def natDecChars (n : Nat) : List Char :=
  if n = 0 then ['0'] else ((decDigitsRev n n).reverse).map decDigitChar

/-- Decimal rendering of an integer (JS `"" + n`). -/
def intDecChars : Int → List Char
  | Int.ofNat m => natDecChars m
  | Int.negSucc m => '-' :: natDecChars (m + 1)

structure RNode where
  id : List Char
  name : List Char
  start : Int
  stop : Int
  size : Int
  isGap : Bool
  deriving Repr, DecidableEq

/-- The record pushed by `gaps.push({...})` for a gap `[cur, stop)`. -/
def mkGap (rootId : List Char) (cur stop : Int) : RNode :=
  ⟨rootId ++ ("/gap@").toList ++ intDecChars cur, ("Unmapped / Reserved").toList,
    cur, stop, stop - cur, true⟩

/-- The `for (const k of kids)` loop of `gapsFromChildren`: emit a gap
whenever `k.start > cur`, then advance the cursor to
`Math.max(cur, k.end)`. -/
def gapsLoop (rootId : List Char) (cur : Int) : List RNode → List RNode
  | [] => []
  | k :: ks =>
    if cur < k.start then
      mkGap rootId cur k.start :: gapsLoop rootId (max cur k.stop) ks
    else gapsLoop rootId (max cur k.stop) ks

/-- The cursor value after the loop. -/
def curAfter (cur : Int) (kids : List RNode) : Int :=
  kids.foldl (fun c k => max c k.stop) cur

/-- `gapsFromChildren(root, kids)`: the early `if (kids.length === 0)
return []` guard, the scan, and the trailing gap when `cur < root.end`. -/
def gapsFromChildren (root : RNode) (kids : List RNode) : List RNode :=
  if kids.isEmpty then []
  else
    gapsLoop root.id root.start kids ++
      (if curAfter root.start kids < root.stop then
        [mkGap root.id (curAfter root.start kids) root.stop]
      else [])

/-- Membership of an address in a record's half-open range
`[start, end)`. -/
def memR (r : RNode) (a : Int) : Prop :=
  r.start ≤ a ∧ a < r.stop

instance (r : RNode) (a : Int) : Decidable (memR r a) := by
  unfold memR
  infer_instance

/-- `a` ends at or before `b` starts (the ordering the validator checks
for adjacent siblings, and the ordering the synthesized gaps satisfy). -/
def beforeR (a b : RNode) : Prop :=
  a.stop ≤ b.start

instance (a b : RNode) : Decidable (beforeR a b) := by
  unfold beforeR
  infer_instance

/-! ## Python tree model, validator and flattener (src/main.py lines 21-75)

Python strings are modelled as `List Char`; `hex()` is reproduced
digit-for-digit so that the identifiers built by `flatten` can be
analysed. -/

inductive Node where
  | mk (name : List Char) (start : Int) (size : Int) (children : List Node)

def Node.name : Node → List Char
  | Node.mk nm _ _ _ => nm

def Node.start : Node → Int
  | Node.mk _ st _ _ => st

def Node.size : Node → Int
  | Node.mk _ _ sz _ => sz

def Node.children : Node → List Node
  | Node.mk _ _ _ cs => cs

/-- The `end` property (`start + size`); `end` is a Lean keyword, so the
projection is called `stop`. -/
def Node.stop (n : Node) : Int := n.start + n.size

/-- Hexadecimal digits of `n`, least significant first; `fuel ≥ n` makes
the recursion structural without ever being exhausted. -/
def hexDigitsRev : Nat → Nat → List Nat
  | 0, _ => []
  | f + 1, n => if n = 0 then [] else n % 16 :: hexDigitsRev f (n / 16)

/-- Lower-case hex digit, as Python `hex` prints it. -/
def hexDigitChar (d : Nat) : Char :=
  if d < 10 then Char.ofNat (48 + d) else Char.ofNat (87 + d)

/-- Python `hex` on a non-negative int: `"0x"` plus minimal lower-case
digits, with `hex(0) = "0x0"`. -/
def pyHexNat (n : Nat) : List Char :=
  if n = 0 then ['0', 'x', '0']
  else '0' :: 'x' :: ((hexDigitsRev n n).reverse.map hexDigitChar)

/-- Python `hex` on an int (negative values print as `-0x...`). -/
def pyHex : Int → List Char
  | Int.ofNat m => pyHexNat m
  | Int.negSucc m => '-' :: pyHexNat (m + 1)

/-- The containment violation message of `validate_tree`
(src/main.py lines 48-51; the two adjacent f-strings concatenate). -/
def containMsg (path : List Char) (n c : Node) : List Char :=
  path ++ '/' :: n.name ++ (": child '").toList ++ c.name ++ ("' [").toList
    ++ pyHex c.start ++ ("..").toList ++ pyHex c.stop
    ++ ("] outside parent [").toList ++ pyHex n.start ++ ("..").toList
    ++ pyHex n.stop ++ ("]").toList

/-- The overlap violation message of `validate_tree` (src/main.py
line 57). -/
def overlapMsg (path : List Char) (n a b : Node) : List Char :=
  path ++ '/' :: n.name ++ (": overlap between '").toList ++ a.name
    ++ ("' and '").toList ++ b.name ++ ("'").toList

/-- The `for i in range(len(kids) - 1)` loop: one overlap message per
adjacent pair with `a.end > b.start`. -/
def overlapPairs (path : List Char) (n : Node) (kids : List Node) : List (List Char) :=
  (kids.zip kids.tail).filterMap
    (fun ab => if ab.2.start < ab.1.stop then some (overlapMsg path n ab.1 ab.2) else none)

mutual

/-- `validate_tree(n, path)` (src/main.py lines 42-59): containment
errors and recursive errors per child in order, then the adjacent
overlap errors. -/
def validate_tree : Node → List Char → List (List Char)
  | Node.mk nm st sz cs, path =>
    validateKids (Node.mk nm st sz cs) path cs
      ++ overlapPairs path (Node.mk nm st sz cs) cs

/-- The `for c in kids` loop of `validate_tree`. -/
def validateKids : Node → List Char → List Node → List (List Char)
  | _, _, [] => []
  | n0, path, c :: cs =>
    (if c.start < n0.start ∨ n0.stop < c.stop then [containMsg path n0 c] else [])
      ++ validate_tree c (path ++ '/' :: n0.name)
      ++ validateKids n0 path cs

end

structure FlatNode where
  id : List Char
  name : List Char
  start : Int
  size : Int
  stop : Int
  depth : Nat
  parent : Option (List Char)
  deriving Repr, DecidableEq

/-- The per-node token `f"{n.name}@{hex(n.start)}"`. -/
def tokenOf (n : Node) : List Char :=
  n.name ++ '@' :: pyHex n.start

/-- Python `str.strip(c)`: remove every leading and trailing `c`. -/
def pyStrip (c : Char) (l : List Char) : List Char :=
  ((l.dropWhile (fun x => x = c)).reverse.dropWhile (fun x => x = c)).reverse

/-- `(parent_id + "/" + token).strip("/")`. -/
def mkId (parentId : List Char) (tok : List Char) : List Char :=
  pyStrip '/' (parentId ++ '/' :: tok)

mutual

/-- `flatten(n, depth, parent_id)` (src/main.py lines 62-75): pre-order,
parent before children. -/
def flatten : Node → Nat → List Char → List FlatNode
  | Node.mk nm st sz cs, depth, parentId =>
    ⟨mkId parentId (tokenOf (Node.mk nm st sz cs)), nm, st, sz, st + sz, depth,
      if parentId = [] then none else some parentId⟩
      :: flattenKids cs (depth + 1) (mkId parentId (tokenOf (Node.mk nm st sz cs)))

/-- The `for c in n.children: out.extend(...)` loop of `flatten`. -/
def flattenKids : List Node → Nat → List Char → List FlatNode
  | [], _, _ => []
  | c :: cs, depth, pid => flatten c depth pid ++ flattenKids cs depth pid

end

mutual

/-- Every node of a tree (the node itself and all descendants). -/
def allNodes : Node → List Node
  | Node.mk nm st sz cs => Node.mk nm st sz cs :: allNodesList cs

def allNodesList : List Node → List Node
  | [] => []
  | c :: cs => allNodes c ++ allNodesList cs

end

/-! ## Expansion controller (src/main.py lines 673-681 and 821-923)

The DOM state a block's click handlers read and write is embedded as a
record: the remembered `dataset.baseH` (unset = `none`), the current
`style.height`, the `expanded` class, label and size-annotation
visibility, and the rendered nested content (`[]` = none). -/

inductive Block where
  | mk (baseH : Option Int) (height : Int) (expanded : Bool)
      (labelShown : Bool) (sizeShown : Bool) (inner : List Block)

def Block.baseH : Block → Option Int
  | Block.mk b _ _ _ _ _ => b

def Block.height : Block → Int
  | Block.mk _ h _ _ _ _ => h

def Block.expanded : Block → Bool
  | Block.mk _ _ e _ _ _ => e

def Block.labelShown : Block → Bool
  | Block.mk _ _ _ l _ _ => l

def Block.sizeShown : Block → Bool
  | Block.mk _ _ _ _ s _ => s

def Block.inner : Block → List Block
  | Block.mk _ _ _ _ _ i => i

/-- `rememberBaseHeight` (src/main.py lines 673-677): store the height
once; an already-set value is never overwritten. -/
def rememberBaseHeight : Block → Int → Block
  | Block.mk b h e l s i, v =>
    Block.mk (if b = none then some v else b) h e l s i

/-- `getBaseHeight` (src/main.py lines 678-681): the stored value when
positive, otherwise 0. -/
def getBaseHeight : Block → Int
  | Block.mk b _ _ _ _ _ =>
    match b with
    | some v => if 0 < v then v else 0
    | none => 0

/-- A block as first laid out: height set and remembered, label and size
annotation visible, collapsed (src/main.py lines 801-810 and 974-981). -/
def newBlock (h : Int) : Block :=
  rememberBaseHeight (Block.mk none h false true true []) h

/-- The expand branch of a block's click handler (src/main.py lines
828-843): mark expanded, hide label and size annotation, materialise the
nested layout; the height is not touched here. -/
def expandClick : Block → List Block → Block
  | Block.mk b h _ _ _ _, nested => Block.mk b h true false false nested

/-- The collapse branch of an inner block's click handler (src/main.py
lines 844-856): remove the nested content, restore label and size
annotation, reset the height to the remembered base height. -/
def collapseClick : Block → Block
  | Block.mk b h e l s i =>
    Block.mk b (getBaseHeight (Block.mk b h e l s i)) false true true []

/-- `collapseTopSliceKeepInner` (src/main.py lines 908-923): same
restoration for a top-level slice; the inner element is kept but its
content is discarded (`innerHTML = ""`), and the height is reset only
when a base height is remembered (`if (base)`). -/
def collapseTopSliceKeepInner : Block → Block
  | Block.mk b h e l s i =>
    Block.mk b
      (if getBaseHeight (Block.mk b h e l s i) ≠ 0
        then getBaseHeight (Block.mk b h e l s i) else h)
      false true true []

/-! ## Boundary marker renderer (src/main.py lines 569-670)

`renderOuterBoundaryLayer` and `renderInnerLaneMarkers` share the same
pipeline on the boundary list they build: deduplicate by the rounded
position `yKey(y) = Math.round(y)` keeping the first-seen entry (the JS
`Map` insertion check), then sort by raw position ascending
(`.sort((a,b) => a.y - b.y)`, a stable sort modelled by insertion sort).
Positions are screen-space measurements, modelled as rationals. -/

structure Boundary where
  y : ℚ
  addr : Int
  bg : List Char
  deriving Repr, DecidableEq

/-- `yKey(y) = Math.round(y)`; JS `Math.round` is `⌊y + 1/2⌋`. -/
def yKey (y : ℚ) : Int :=
  ⌊y + 1 / 2⌋

/-- The `if (!byY.has(key)) byY.set(key, b)` loop: keep the first entry
per rounded key, in first-seen order (JS `Map` preserves insertion
order). -/
def dedupByKey (seen : List Int) : List Boundary → List Boundary
  | [] => []
  | b :: bs =>
    if yKey b.y ∈ seen then dedupByKey seen bs
    else b :: dedupByKey (yKey b.y :: seen) bs

/-- Stable insertion step for the sort by raw `y`. -/
def insertB (b : Boundary) : List Boundary → List Boundary
  | [] => [b]
  | c :: cs => if b.y ≤ c.y then b :: c :: cs else c :: insertB b cs

/-- Stable sort by raw `y` (the JS `Array.prototype.sort` contract for a
consistent comparator). -/
def sortB : List Boundary → List Boundary
  | [] => []
  | b :: bs => insertB b (sortB bs)

/-- The marker pipeline both renderers apply to their boundary list. -/
def renderBoundaries (bs : List Boundary) : List Boundary :=
  sortB (dedupByKey [] bs)

/-- Value of a little-endian base-16 digit list (decoder used to prove
`hex` injective). -/
def unBase16 : List Nat → Nat
  | [] => 0
  | d :: ds => d + 16 * unBase16 ds

/-- Numeric value of a lower-case hex digit character (decoder). -/
def hexVal (c : Char) : Nat :=
  if 97 ≤ c.toNat then c.toNat - 87 else c.toNat - 48

/-- Invariant of every identifier `flatten` produces: nonempty, and
starting and ending with a character other than `/` (so that appending
`"/" + token` and stripping commute trivially at the next level). -/
def GoodId (l : List Char) : Prop :=
  l ≠ [] ∧ (∀ x ∈ l.head?, x ≠ '/') ∧ (∀ x ∈ l.getLast?, x ≠ '/')

/-- Range-and-shape invariant of a flattened entry under parent id
`pid`: the id strictly extends `pid`, ends in `@` plus the hex start,
and the start lies in `[lo, hi)`. -/
def FlatInv (pid : List Char) (lo hi : Int) (f : FlatNode) : Prop :=
  pid.length + 2 ≤ f.id.length ∧
  (∃ pre, f.id = pre ++ '@' :: pyHex f.start) ∧
  lo ≤ f.start ∧ f.start < hi

/-- Induction statement for id uniqueness: under an empty or good parent
id, positive sizes, containment and separated siblings, the flattened
ids are distinct and every entry satisfies `FlatInv`. -/
def FlatOk (n : Node) : Prop :=
  ∀ (depth : Nat) (pid : List Char),
    pid = [] ∨ GoodId pid →
    (∀ m ∈ allNodes n, 0 < m.size) →
    (∀ m ∈ allNodes n, ∀ c ∈ m.children, m.start ≤ c.start ∧ c.stop ≤ m.stop) →
    (∀ m ∈ allNodes n, ∀ ab ∈ m.children.zip m.children.tail, ab.1.stop ≤ ab.2.start) →
    ((flatten n depth pid).map (fun f => f.id)).Nodup ∧
    ∀ f ∈ flatten n depth pid, FlatInv pid n.start n.stop f

/-! ### Invariants of the redistribution passes -/

theorem growPass_length (maxPx step : Int) (hs : List (Bool × Int)) (d : Int) :
    (growPass maxPx step hs d).1.length = hs.length := by
  induction hs generalizing d with
  | nil => simp [growPass]
  | cons p rest ih =>
    by_cases h : p.1 = false ∧ p.2 < maxPx
    · simp [growPass, h, ih]
    · simp [growPass, h, ih]

theorem shrinkPass_length (minPx step : Int) (hs : List (Bool × Int)) (need : Int) :
    (shrinkPass minPx step hs need).1.length = hs.length := by
  induction hs generalizing need with
  | nil => simp [shrinkPass]
  | cons p rest ih =>
    by_cases h : p.1 = false ∧ minPx < p.2
    · simp [shrinkPass, h, ih]
    · simp [shrinkPass, h, ih]

theorem growPass_map_fst (maxPx step : Int) (hs : List (Bool × Int)) (d : Int) :
    (growPass maxPx step hs d).1.map Prod.fst = hs.map Prod.fst := by
  induction hs generalizing d with
  | nil => simp [growPass]
  | cons p rest ih =>
    by_cases h : p.1 = false ∧ p.2 < maxPx
    · simp [growPass, h, ih]
    · simp [growPass, h, ih]

theorem shrinkPass_map_fst (minPx step : Int) (hs : List (Bool × Int)) (need : Int) :
    (shrinkPass minPx step hs need).1.map Prod.fst = hs.map Prod.fst := by
  induction hs generalizing need with
  | nil => simp [shrinkPass]
  | cons p rest ih =>
    by_cases h : p.1 = false ∧ minPx < p.2
    · simp [shrinkPass, h, ih]
    · simp [shrinkPass, h, ih]

/-- Whatever a grow pass adds to the heights it removes from `delta`. -/
theorem growPass_sum (maxPx step : Int) (hs : List (Bool × Int)) (d : Int) :
    ((growPass maxPx step hs d).1.map Prod.snd).sum + (growPass maxPx step hs d).2
      = (hs.map Prod.snd).sum + d := by
  induction hs generalizing d with
  | nil => simp [growPass]
  | cons p rest ih =>
    by_cases h : p.1 = false ∧ p.2 < maxPx
    · simp only [growPass, if_pos h, List.map_cons, List.sum_cons]
      have := ih (d - min step (min (maxPx - p.2) d))
      omega
    · simp only [growPass, if_neg h, List.map_cons, List.sum_cons]
      have := ih d
      omega

/-- Whatever a shrink pass removes from the heights it removes from
`need` as well. -/
theorem shrinkPass_sum (minPx step : Int) (hs : List (Bool × Int)) (need : Int) :
    ((shrinkPass minPx step hs need).1.map Prod.snd).sum - (shrinkPass minPx step hs need).2
      = (hs.map Prod.snd).sum - need := by
  induction hs generalizing need with
  | nil => simp [shrinkPass]
  | cons p rest ih =>
    by_cases h : p.1 = false ∧ minPx < p.2
    · simp only [shrinkPass, if_pos h, List.map_cons, List.sum_cons]
      have := ih (need - min step (min (p.2 - minPx) need))
      omega
    · simp only [shrinkPass, if_neg h, List.map_cons, List.sum_cons]
      have := ih need
      omega

theorem growPass_delta_nonneg (maxPx step : Int) (hs : List (Bool × Int)) (d : Int)
    (hd : 0 ≤ d) : 0 ≤ (growPass maxPx step hs d).2 := by
  induction hs generalizing d with
  | nil => simpa [growPass] using hd
  | cons p rest ih =>
    by_cases h : p.1 = false ∧ p.2 < maxPx
    · simp only [growPass, if_pos h]
      exact ih _ (by omega)
    · simp only [growPass, if_neg h]
      exact ih _ hd

theorem shrinkPass_need_nonneg (minPx step : Int) (hs : List (Bool × Int)) (need : Int)
    (hd : 0 ≤ need) : 0 ≤ (shrinkPass minPx step hs need).2 := by
  induction hs generalizing need with
  | nil => simpa [shrinkPass] using hd
  | cons p rest ih =>
    by_cases h : p.1 = false ∧ minPx < p.2
    · simp only [shrinkPass, if_pos h]
      exact ih _ (by omega)
    · simp only [shrinkPass, if_neg h]
      exact ih _ hd

/-- A grow pass never touches gap entries. -/
theorem growPass_gap (maxPx step gv : Int) (hs : List (Bool × Int)) (d : Int)
    (hgap : ∀ p ∈ hs, p.1 = true → p.2 = gv) :
    ∀ p ∈ (growPass maxPx step hs d).1, p.1 = true → p.2 = gv := by
  induction hs generalizing d with
  | nil => simp [growPass]
  | cons p rest ih =>
    intro q hq hq1
    by_cases h : p.1 = false ∧ p.2 < maxPx
    · simp only [growPass, if_pos h, List.mem_cons] at hq
      rcases hq with rfl | hq
      · simp at hq1; exact absurd hq1 (by simp [h.1])
      · exact ih _ (fun r hr => hgap r (List.mem_cons_of_mem _ hr)) q hq hq1
    · simp only [growPass, if_neg h, List.mem_cons] at hq
      rcases hq with rfl | hq
      · exact hgap q (List.mem_cons_self _ _) hq1
      · exact ih _ (fun r hr => hgap r (List.mem_cons_of_mem _ hr)) q hq hq1

/-- A shrink pass never touches gap entries. -/
theorem shrinkPass_gap (minPx step gv : Int) (hs : List (Bool × Int)) (need : Int)
    (hgap : ∀ p ∈ hs, p.1 = true → p.2 = gv) :
    ∀ p ∈ (shrinkPass minPx step hs need).1, p.1 = true → p.2 = gv := by
  induction hs generalizing need with
  | nil => simp [shrinkPass]
  | cons p rest ih =>
    intro q hq hq1
    by_cases h : p.1 = false ∧ minPx < p.2
    · simp only [shrinkPass, if_pos h, List.mem_cons] at hq
      rcases hq with rfl | hq
      · simp at hq1; exact absurd hq1 (by simp [h.1])
      · exact ih _ (fun r hr => hgap r (List.mem_cons_of_mem _ hr)) q hq hq1
    · simp only [shrinkPass, if_neg h, List.mem_cons] at hq
      rcases hq with rfl | hq
      · exact hgap q (List.mem_cons_self _ _) hq1
      · exact ih _ (fun r hr => hgap r (List.mem_cons_of_mem _ hr)) q hq hq1

/-- A grow pass keeps every non-gap height at or above `minPx`
(the amount added is non-negative while `delta ≥ 0` and `step ≥ 1`). -/
theorem growPass_lower (minPx maxPx step : Int) (hs : List (Bool × Int)) (d : Int)
    (hstep : 1 ≤ step) (hd : 0 ≤ d)
    (hlo : ∀ p ∈ hs, p.1 = false → minPx ≤ p.2) :
    ∀ p ∈ (growPass maxPx step hs d).1, p.1 = false → minPx ≤ p.2 := by
  induction hs generalizing d with
  | nil => simp [growPass]
  | cons p rest ih =>
    intro q hq hq1
    by_cases h : p.1 = false ∧ p.2 < maxPx
    · simp only [growPass, if_pos h, List.mem_cons] at hq
      rcases hq with rfl | hq
      · have hp := hlo p (List.mem_cons_self _ _) h.1
        have hcap : 0 < maxPx - p.2 := by omega
        simp only
        have : (0:Int) ≤ min step (min (maxPx - p.2) d) := by
          simp only [le_min_iff]
          omega
        omega
      · exact ih _ (by omega) (fun r hr => hlo r (List.mem_cons_of_mem _ hr)) q hq hq1
    · simp only [growPass, if_neg h, List.mem_cons] at hq
      rcases hq with rfl | hq
      · exact hlo q (List.mem_cons_self _ _) hq1
      · exact ih _ hd (fun r hr => hlo r (List.mem_cons_of_mem _ hr)) q hq hq1

/-- A grow pass keeps every non-gap height at or below `maxPx` (the
amount added never exceeds `maxPx - h`). -/
theorem growPass_upper (maxPx step : Int) (hs : List (Bool × Int)) (d : Int)
    (hup : ∀ p ∈ hs, p.1 = false → p.2 ≤ maxPx) :
    ∀ p ∈ (growPass maxPx step hs d).1, p.1 = false → p.2 ≤ maxPx := by
  induction hs generalizing d with
  | nil => simp [growPass]
  | cons p rest ih =>
    intro q hq hq1
    by_cases h : p.1 = false ∧ p.2 < maxPx
    · simp only [growPass, if_pos h, List.mem_cons] at hq
      rcases hq with rfl | hq
      · simp only
        have : min step (min (maxPx - p.2) d) ≤ maxPx - p.2 := by
          simp only [min_le_iff, le_min_iff]
          omega
        omega
      · exact ih _ (fun r hr => hup r (List.mem_cons_of_mem _ hr)) q hq hq1
    · simp only [growPass, if_neg h, List.mem_cons] at hq
      rcases hq with rfl | hq
      · exact hup q (List.mem_cons_self _ _) hq1
      · exact ih _ (fun r hr => hup r (List.mem_cons_of_mem _ hr)) q hq hq1

/-- A shrink pass keeps every non-gap height at or above `minPx` (the
amount removed never exceeds `h - minPx`). -/
theorem shrinkPass_lower (minPx step : Int) (hs : List (Bool × Int)) (need : Int)
    (hlo : ∀ p ∈ hs, p.1 = false → minPx ≤ p.2) :
    ∀ p ∈ (shrinkPass minPx step hs need).1, p.1 = false → minPx ≤ p.2 := by
  induction hs generalizing need with
  | nil => simp [shrinkPass]
  | cons p rest ih =>
    intro q hq hq1
    by_cases h : p.1 = false ∧ minPx < p.2
    · simp only [shrinkPass, if_pos h, List.mem_cons] at hq
      rcases hq with rfl | hq
      · simp only
        have : min step (min (p.2 - minPx) need) ≤ p.2 - minPx := by
          simp only [min_le_iff, le_min_iff]
          omega
        omega
      · exact ih _ (fun r hr => hlo r (List.mem_cons_of_mem _ hr)) q hq hq1
    · simp only [shrinkPass, if_neg h, List.mem_cons] at hq
      rcases hq with rfl | hq
      · exact hlo q (List.mem_cons_self _ _) hq1
      · exact ih _ (fun r hr => hlo r (List.mem_cons_of_mem _ hr)) q hq hq1

/-- A shrink pass keeps every non-gap height at or below `maxPx`
(the amount removed is non-negative while `need ≥ 0` and `step ≥ 1`). -/
theorem shrinkPass_upper (minPx maxPx step : Int) (hs : List (Bool × Int)) (need : Int)
    (hstep : 1 ≤ step) (hd : 0 ≤ need)
    (hup : ∀ p ∈ hs, p.1 = false → p.2 ≤ maxPx) :
    ∀ p ∈ (shrinkPass minPx step hs need).1, p.1 = false → p.2 ≤ maxPx := by
  induction hs generalizing need with
  | nil => simp [shrinkPass]
  | cons p rest ih =>
    intro q hq hq1
    by_cases h : p.1 = false ∧ minPx < p.2
    · simp only [shrinkPass, if_pos h, List.mem_cons] at hq
      rcases hq with rfl | hq
      · have hp := hup p (List.mem_cons_self _ _) h.1
        simp only
        have : (0:Int) ≤ min step (min (p.2 - minPx) need) := by
          simp only [le_min_iff]
          omega
        omega
      · exact ih _ (by omega) (fun r hr => hup r (List.mem_cons_of_mem _ hr)) q hq hq1
    · simp only [shrinkPass, if_neg h, List.mem_cons] at hq
      rcases hq with rfl | hq
      · exact hup q (List.mem_cons_self _ _) hq1
      · exact ih _ hd (fun r hr => hup r (List.mem_cons_of_mem _ hr)) q hq hq1

/-! ### Invariants of the full redistribution loop -/

theorem redistribute_map_fst (minPx maxPx : Int) (fuel : Nat) :
    ∀ (hs : List (Bool × Int)) (d : Int),
    (redistribute minPx maxPx fuel hs d).1.map Prod.fst = hs.map Prod.fst := by
  induction fuel with
  | zero => intro hs d; rfl
  | succ f ih =>
    intro hs d
    by_cases h0 : d = 0
    · simp [redistribute, h0]
    · by_cases hpos : 0 < d
      · by_cases hn : growCount maxPx hs = 0
        · simp [redistribute, h0, hpos, hn]
        · simp only [redistribute, if_neg h0, if_pos hpos, if_neg hn]
          rw [ih, growPass_map_fst]
      · by_cases hn : shrinkCount minPx hs = 0
        · simp [redistribute, h0, hpos, hn]
        · simp only [redistribute, if_neg h0, if_neg hpos, if_neg hn]
          rw [ih, shrinkPass_map_fst]

/-- Loop invariant: the total height plus the running `delta` equals the
initial total plus the initial `delta` (i.e. equals `budgetPx`). -/
theorem redistribute_sum (minPx maxPx : Int) (fuel : Nat) :
    ∀ (hs : List (Bool × Int)) (d : Int),
    ((redistribute minPx maxPx fuel hs d).1.map Prod.snd).sum
        + (redistribute minPx maxPx fuel hs d).2.1
      = (hs.map Prod.snd).sum + d := by
  induction fuel with
  | zero => intro hs d; rfl
  | succ f ih =>
    intro hs d
    by_cases h0 : d = 0
    · simp [redistribute, h0]
    · by_cases hpos : 0 < d
      · by_cases hn : growCount maxPx hs = 0
        · simp [redistribute, h0, hpos, hn]
        · simp only [redistribute, if_neg h0, if_pos hpos, if_neg hn]
          rw [ih]
          exact growPass_sum _ _ _ _
      · by_cases hn : shrinkCount minPx hs = 0
        · simp [redistribute, h0, hpos, hn]
        · simp only [redistribute, if_neg h0, if_neg hpos, if_neg hn]
          rw [ih]
          have := shrinkPass_sum minPx (max 1 (Int.ediv (-d) (shrinkCount minPx hs : Int))) hs (-d)
          omega

theorem redistribute_gap (minPx maxPx gv : Int) (fuel : Nat) :
    ∀ (hs : List (Bool × Int)) (d : Int),
    (∀ p ∈ hs, p.1 = true → p.2 = gv) →
    ∀ p ∈ (redistribute minPx maxPx fuel hs d).1, p.1 = true → p.2 = gv := by
  induction fuel with
  | zero => intro hs d h; exact h
  | succ f ih =>
    intro hs d hgap
    by_cases h0 : d = 0
    · simpa [redistribute, h0] using hgap
    · by_cases hpos : 0 < d
      · by_cases hn : growCount maxPx hs = 0
        · simpa [redistribute, h0, hpos, hn] using hgap
        · simp only [redistribute, if_neg h0, if_pos hpos, if_neg hn]
          exact ih _ _ (growPass_gap _ _ _ _ _ hgap)
      · by_cases hn : shrinkCount minPx hs = 0
        · simpa [redistribute, h0, hpos, hn] using hgap
        · simp only [redistribute, if_neg h0, if_neg hpos, if_neg hn]
          exact ih _ _ (shrinkPass_gap _ _ _ _ _ hgap)

theorem redistribute_lower (minPx maxPx : Int) (fuel : Nat) :
    ∀ (hs : List (Bool × Int)) (d : Int),
    (∀ p ∈ hs, p.1 = false → minPx ≤ p.2) →
    ∀ p ∈ (redistribute minPx maxPx fuel hs d).1, p.1 = false → minPx ≤ p.2 := by
  induction fuel with
  | zero => intro hs d h; exact h
  | succ f ih =>
    intro hs d hlo
    by_cases h0 : d = 0
    · simpa [redistribute, h0] using hlo
    · by_cases hpos : 0 < d
      · by_cases hn : growCount maxPx hs = 0
        · simpa [redistribute, h0, hpos, hn] using hlo
        · simp only [redistribute, if_neg h0, if_pos hpos, if_neg hn]
          exact ih _ _ (growPass_lower _ _ _ _ _ (le_max_left _ _) (by omega) hlo)
      · by_cases hn : shrinkCount minPx hs = 0
        · simpa [redistribute, h0, hpos, hn] using hlo
        · simp only [redistribute, if_neg h0, if_neg hpos, if_neg hn]
          exact ih _ _ (shrinkPass_lower _ _ _ _ hlo)

theorem redistribute_upper (minPx maxPx : Int) (fuel : Nat) :
    ∀ (hs : List (Bool × Int)) (d : Int),
    (∀ p ∈ hs, p.1 = false → p.2 ≤ maxPx) →
    ∀ p ∈ (redistribute minPx maxPx fuel hs d).1, p.1 = false → p.2 ≤ maxPx := by
  induction fuel with
  | zero => intro hs d h; exact h
  | succ f ih =>
    intro hs d hup
    by_cases h0 : d = 0
    · simpa [redistribute, h0] using hup
    · by_cases hpos : 0 < d
      · by_cases hn : growCount maxPx hs = 0
        · simpa [redistribute, h0, hpos, hn] using hup
        · simp only [redistribute, if_neg h0, if_pos hpos, if_neg hn]
          exact ih _ _ (growPass_upper _ _ _ _ hup)
      · by_cases hn : shrinkCount minPx hs = 0
        · simpa [redistribute, h0, hpos, hn] using hup
        · simp only [redistribute, if_neg h0, if_neg hpos, if_neg hn]
          exact ih _ _
            (shrinkPass_upper _ _ _ _ _ (le_max_left _ _) (by omega) hup)

/-- If the loop stopped with fuel to spare, it stopped either because
`delta` reached 0 or because the growable/shrinkable set was empty. -/
theorem redistribute_exit (minPx maxPx : Int) (fuel : Nat) :
    ∀ (hs : List (Bool × Int)) (d : Int),
    (redistribute minPx maxPx fuel hs d).2.2 ≠ 0 →
    (redistribute minPx maxPx fuel hs d).2.1 = 0 ∨
    (0 < (redistribute minPx maxPx fuel hs d).2.1 ∧
      growCount maxPx (redistribute minPx maxPx fuel hs d).1 = 0) ∨
    ((redistribute minPx maxPx fuel hs d).2.1 < 0 ∧
      shrinkCount minPx (redistribute minPx maxPx fuel hs d).1 = 0) := by
  induction fuel with
  | zero => intro hs d h; exact absurd rfl h
  | succ f ih =>
    intro hs d hne
    by_cases h0 : d = 0
    · simp [redistribute, h0]
    · by_cases hpos : 0 < d
      · by_cases hn : growCount maxPx hs = 0
        · simp [redistribute, h0, hpos, hn]
        · simp only [redistribute, if_neg h0, if_pos hpos, if_neg hn] at hne ⊢
          exact ih _ _ hne
      · by_cases hn : shrinkCount minPx hs = 0
        · simp only [redistribute, if_neg h0, if_pos hpos, if_neg hpos, if_pos hn]
          right; right
          exact ⟨by omega, hn⟩
        · simp only [redistribute, if_neg h0, if_neg hpos, if_neg hn] at hne ⊢
          exact ih _ _ hne

/-! ### Counting and saturation lemmas -/

/-- Total height of a state whose gap entries all equal `gv` and whose
non-gap entries all equal `v`. -/
theorem sum_of_saturated (gv v : Int) (hs : List (Bool × Int))
    (hgap : ∀ p ∈ hs, p.1 = true → p.2 = gv)
    (hng : ∀ p ∈ hs, p.1 = false → p.2 = v) :
    (hs.map Prod.snd).sum
      = (hs.countP (fun p => p.1) : Int) * gv + (hs.countP (fun p => !p.1) : Int) * v := by
  induction hs with
  | nil => simp
  | cons p rest ih =>
    have h1 : ∀ q ∈ rest, q.1 = true → q.2 = gv :=
      fun q hq => hgap q (List.mem_cons_of_mem _ hq)
    have h2 : ∀ q ∈ rest, q.1 = false → q.2 = v :=
      fun q hq => hng q (List.mem_cons_of_mem _ hq)
    have hrest := ih h1 h2
    cases hp : p.1 with
    | false =>
      have hv : p.2 = v := hng p (List.mem_cons_self _ _) hp
      simp [List.countP_cons, hp, hrest, hv]
      ring
    | true =>
      have hv : p.2 = gv := hgap p (List.mem_cons_self _ _) hp
      simp [List.countP_cons, hp, hrest, hv]
      ring

/-- States with the same flag sequence have the same flag counts. -/
theorem countP_fst_eq (q : Bool → Bool) (hs hs' : List (Bool × Int))
    (h : hs.map Prod.fst = hs'.map Prod.fst) :
    hs.countP (fun p => q p.1) = hs'.countP (fun p => q p.1) := by
  have e : ∀ l : List (Bool × Int), l.countP (fun p => q p.1) = (l.map Prod.fst).countP q :=
    fun l => (List.countP_map q Prod.fst l).symm
  rw [e, e, h]

theorem initState_countP (items : List HItem) (minPx maxPx budgetPx gapPx : Int)
    (q : Bool → Bool) :
    (initState items minPx maxPx budgetPx gapPx).countP (fun p => q p.1)
      = items.countP (fun it => q it.isGap) := by
  unfold initState
  rw [List.countP_map]
  rfl

theorem gapCountOf_eq_countP (items : List HItem) :
    gapCountOf items = items.countP (fun it => it.isGap) :=
  (List.countP_eq_length_filter _ _).symm

theorem nonGapCountOf_eq_countP (items : List HItem) :
    nonGapCountOf items = items.countP (fun it => !it.isGap) :=
  (List.countP_eq_length_filter _ _).symm

/-- Initial gap heights are exactly `gapPx`. -/
theorem initState_gap (items : List HItem) (minPx maxPx budgetPx gapPx : Int) :
    ∀ p ∈ initState items minPx maxPx budgetPx gapPx, p.1 = true → p.2 = gapPx := by
  intro p hp h1
  simp only [initState, List.mem_map] at hp
  obtain ⟨it, hit, rfl⟩ := hp
  simp only at h1
  simp [clampH, rawH, h1]

/-- Initial non-gap heights are at least `minPx` (the outer
`Math.max(minPx, ...)` of the clamp). -/
theorem initState_lower (items : List HItem) (minPx maxPx budgetPx gapPx : Int) :
    ∀ p ∈ initState items minPx maxPx budgetPx gapPx, p.1 = false → minPx ≤ p.2 := by
  intro p hp h1
  simp only [initState, List.mem_map] at hp
  obtain ⟨it, hit, rfl⟩ := hp
  simp only at h1 ⊢
  simp [clampH, h1, le_max_iff]

/-- Initial non-gap heights are at most `maxPx`, provided
`minPx ≤ maxPx`. -/
theorem initState_upper (items : List HItem) (minPx maxPx budgetPx gapPx : Int)
    (hmm : minPx ≤ maxPx) :
    ∀ p ∈ initState items minPx maxPx budgetPx gapPx, p.1 = false → p.2 ≤ maxPx := by
  intro p hp h1
  simp only [initState, List.mem_map] at hp
  obtain ⟨it, hit, rfl⟩ := hp
  simp only at h1 ⊢
  simp only [clampH, h1, Bool.false_eq_true, if_false]
  exact max_le hmm (min_le_left _ _)

/-- An empty growable set means every non-gap height is at least
`maxPx`. -/
theorem growCount_eq_zero (maxPx : Int) (hs : List (Bool × Int))
    (h : growCount maxPx hs = 0) :
    ∀ p ∈ hs, p.1 = false → maxPx ≤ p.2 := by
  rw [growCount, List.countP_eq_zero] at h
  intro p hp h1
  have := h p hp
  simp [h1] at this
  omega

/-- An empty shrinkable set means every non-gap height is at most
`minPx`. -/
theorem shrinkCount_eq_zero (minPx : Int) (hs : List (Bool × Int))
    (h : shrinkCount minPx hs = 0) :
    ∀ p ∈ hs, p.1 = false → p.2 ≤ minPx := by
  rw [shrinkCount, List.countP_eq_zero] at h
  intro p hp h1
  have := h p hp
  simp [h1] at this
  omega

/-! ### Claim theorems for the space allocator -/

/-- Claim C3: for every input to `computeHeightsToFit` whose clamp
bounds admit a feasible solution
(`minExtent * nonGapCount ≤ budget - fixedGapCost ≤ maxExtent * nonGapCount`),
the sum of all returned extents equals `budget` exactly, given that the
redistribution pass terminates within its 2000-iteration guard (the
third hypothesis: the loop exits through its own conditions with fuel to
spare).  Under feasibility a dead-end exit (empty growable/shrinkable
set with nonzero `delta`) is impossible, so in-guard termination forces
`delta = 0` and the exact-budget total. -/
theorem claimC3_sum_eq_budget (items : List HItem) (minPx maxPx budgetPx gapPx : Int)
    (hf1 : minPx * (nonGapCountOf items : Int) ≤ budgetPx - fixedGapOf items gapPx)
    (hf2 : budgetPx - fixedGapOf items gapPx ≤ maxPx * (nonGapCountOf items : Int))
    (hguard : (redistribute minPx maxPx 2000
        (initState items minPx maxPx budgetPx gapPx)
        (initDelta items minPx maxPx budgetPx gapPx)).2.2 ≠ 0) :
    (computeHeightsToFit items minPx maxPx budgetPx gapPx).sum = budgetPx := by
  by_cases hnil : items.isEmpty
  · rw [List.isEmpty_iff] at hnil
    subst hnil
    simp only [computeHeightsToFit, List.isEmpty_nil, if_true, List.sum_nil]
    simp [nonGapCountOf, fixedGapOf, gapCountOf] at hf1 hf2
    omega
  · set S := initState items minPx maxPx budgetPx gapPx with hSdef
    set d0 := initDelta items minPx maxPx budgetPx gapPx with hd0def
    set R := redistribute minPx maxPx 2000 S d0 with hRdef
    have hd0 : (S.map Prod.snd).sum + d0 = budgetPx := by
      rw [hd0def, initDelta, ← hSdef]
      omega
    have hsum : ((R.1.map Prod.snd).sum) + R.2.1 = (S.map Prod.snd).sum + d0 :=
      redistribute_sum minPx maxPx 2000 S d0
    have hfst : R.1.map Prod.fst = S.map Prod.fst :=
      redistribute_map_fst minPx maxPx 2000 S d0
    have hcntT : R.1.countP (fun p => p.1) = gapCountOf items := by
      have e1 : R.1.countP (fun p => p.1) = S.countP (fun p => p.1) :=
        countP_fst_eq (fun b => b) R.1 S hfst
      have e2 : S.countP (fun p => p.1) = items.countP (fun it => it.isGap) :=
        initState_countP items minPx maxPx budgetPx gapPx (fun b => b)
      rw [e1, e2, gapCountOf_eq_countP]
    have hcntF : R.1.countP (fun p => !p.1) = nonGapCountOf items := by
      have e1 : R.1.countP (fun p => !p.1) = S.countP (fun p => !p.1) :=
        countP_fst_eq (fun b => !b) R.1 S hfst
      have e2 : S.countP (fun p => !p.1) = items.countP (fun it => !it.isGap) :=
        initState_countP items minPx maxPx budgetPx gapPx (fun b => !b)
      rw [e1, e2, nonGapCountOf_eq_countP]
    have hgapR : ∀ p ∈ R.1, p.1 = true → p.2 = gapPx :=
      redistribute_gap minPx maxPx gapPx 2000 S d0
        (initState_gap items minPx maxPx budgetPx gapPx)
    have hgoal : (computeHeightsToFit items minPx maxPx budgetPx gapPx)
        = R.1.map Prod.snd := by
      rw [computeHeightsToFit, if_neg (by simpa using hnil)]
    rw [hgoal]
    suffices hfinal : R.2.1 = 0 by omega
    -- the bounds invariant; when there are non-gap items we know
    -- minPx ≤ maxPx from feasibility, otherwise the bound is vacuous
    have hnonempty_bounds :
        (∀ p ∈ R.1, p.1 = false → minPx ≤ p.2) ∧
        (∀ p ∈ R.1, p.1 = false → p.2 ≤ maxPx) := by
      by_cases hk : nonGapCountOf items = 0
      · have hzero : R.1.countP (fun p => !p.1) = 0 := by rw [hcntF, hk]
        rw [List.countP_eq_zero] at hzero
        constructor <;> intro p hp h1
        · exact absurd (by simp [h1] : (!p.1) = true) (hzero p hp)
        · exact absurd (by simp [h1] : (!p.1) = true) (hzero p hp)
      · have hkpos : 0 < (nonGapCountOf items : Int) := by
          have := Nat.pos_of_ne_zero hk
          exact_mod_cast this
        have hmm : minPx ≤ maxPx :=
          le_of_mul_le_mul_right (hf1.trans hf2) hkpos
        exact ⟨redistribute_lower minPx maxPx 2000 S d0
            (initState_lower items minPx maxPx budgetPx gapPx),
          redistribute_upper minPx maxPx 2000 S d0
            (initState_upper items minPx maxPx budgetPx gapPx hmm)⟩
    rcases redistribute_exit minPx maxPx 2000 S d0 hguard with h | ⟨hpos, hg0⟩ | ⟨hneg, hs0⟩
    · exact h
    · exfalso
      have hng : ∀ p ∈ R.1, p.1 = false → p.2 = maxPx := by
        intro p hp h1
        have h2 := growCount_eq_zero maxPx R.1 hg0 p hp h1
        have h3 := hnonempty_bounds.2 p hp h1
        omega
      have hsat := sum_of_saturated gapPx maxPx R.1 hgapR hng
      rw [hcntT, hcntF] at hsat
      rw [fixedGapOf] at hf2
      have : R.2.1 = budgetPx - ((gapCountOf items : Int) * gapPx
          + (nonGapCountOf items : Int) * maxPx) := by omega
      nlinarith [hf2, hpos, this]
    · exfalso
      have hng : ∀ p ∈ R.1, p.1 = false → p.2 = minPx := by
        intro p hp h1
        have h2 := shrinkCount_eq_zero minPx R.1 hs0 p hp h1
        have h3 := hnonempty_bounds.1 p hp h1
        omega
      have hsat := sum_of_saturated gapPx minPx R.1 hgapR hng
      rw [hcntT, hcntF] at hsat
      rw [fixedGapOf] at hf1
      have : R.2.1 = budgetPx - ((gapCountOf items : Int) * gapPx
          + (nonGapCountOf items : Int) * minPx) := by omega
      nlinarith [hf1, hneg, this]

/-- Witness for C3 at the spec's own scenario (§8): three unit-size
non-gap items, `minExtent = 10`, `maxExtent = 140`, `budget = 100`. -/
theorem claimC3_witness :
    (10 * (nonGapCountOf [⟨1, false⟩, ⟨1, false⟩, ⟨1, false⟩] : Int)
        ≤ 100 - fixedGapOf [⟨1, false⟩, ⟨1, false⟩, ⟨1, false⟩] 52) ∧
    (computeHeightsToFit [⟨1, false⟩, ⟨1, false⟩, ⟨1, false⟩] 10 140 100 52).sum = 100 :=
  ⟨by decide,
    claimC3_sum_eq_budget [⟨1, false⟩, ⟨1, false⟩, ⟨1, false⟩] 10 140 100 52
      (by decide) (by decide) (by decide)⟩

/-- Positional access into the final state: the flag at index `i` is the
item's `_isGap` flag, and the returned extent at index `i` is the state's
height at index `i`. -/
theorem redistribute_getElem_fst (items : List HItem) (minPx maxPx budgetPx gapPx : Int)
    (i : Nat)
    (hi : i < (redistribute minPx maxPx 2000
        (initState items minPx maxPx budgetPx gapPx)
        (initDelta items minPx maxPx budgetPx gapPx)).1.length)
    (hii : i < items.length) :
    ((redistribute minPx maxPx 2000
        (initState items minPx maxPx budgetPx gapPx)
        (initDelta items minPx maxPx budgetPx gapPx)).1[i]).1 = items[i].isGap := by
  have hfst := redistribute_map_fst minPx maxPx 2000
    (initState items minPx maxPx budgetPx gapPx)
    (initDelta items minPx maxPx budgetPx gapPx)
  have hm1 : i < ((redistribute minPx maxPx 2000
      (initState items minPx maxPx budgetPx gapPx)
      (initDelta items minPx maxPx budgetPx gapPx)).1.map Prod.fst).length := by
    simpa using hi
  have hm2 : i < ((initState items minPx maxPx budgetPx gapPx).map Prod.fst).length := by
    simpa [initState] using hii
  have h1 : ((redistribute minPx maxPx 2000
      (initState items minPx maxPx budgetPx gapPx)
      (initDelta items minPx maxPx budgetPx gapPx)).1.map Prod.fst)[i]
      = ((initState items minPx maxPx budgetPx gapPx).map Prod.fst)[i] := by
    simp only [hfst]
  rw [List.getElem_map, List.getElem_map] at h1
  rw [h1]
  simp [initState]

/-- Claim C4: with `minExtent ≤ maxExtent`, `computeHeightsToFit` returns
one extent per item; every gap extent equals `gapExtent` exactly (the
redistribution passes skip gap entries), and every non-gap extent lies
within `[minExtent, maxExtent]`. -/
theorem claimC4_extent_bounds (items : List HItem) (minPx maxPx budgetPx gapPx : Int)
    (hmm : minPx ≤ maxPx) :
    (computeHeightsToFit items minPx maxPx budgetPx gapPx).length = items.length ∧
    ∀ pr ∈ items.zip (computeHeightsToFit items minPx maxPx budgetPx gapPx),
      (pr.1.isGap = true → pr.2 = gapPx) ∧
      (pr.1.isGap = false → minPx ≤ pr.2 ∧ pr.2 ≤ maxPx) := by
  by_cases hnil : items.isEmpty
  · rw [List.isEmpty_iff] at hnil
    subst hnil
    simp [computeHeightsToFit]
  · have hres : computeHeightsToFit items minPx maxPx budgetPx gapPx
        = (redistribute minPx maxPx 2000
            (initState items minPx maxPx budgetPx gapPx)
            (initDelta items minPx maxPx budgetPx gapPx)).1.map Prod.snd := by
      rw [computeHeightsToFit, if_neg (by simpa using hnil)]
    have hfst := redistribute_map_fst minPx maxPx 2000
      (initState items minPx maxPx budgetPx gapPx)
      (initDelta items minPx maxPx budgetPx gapPx)
    have hlen : (redistribute minPx maxPx 2000
        (initState items minPx maxPx budgetPx gapPx)
        (initDelta items minPx maxPx budgetPx gapPx)).1.length = items.length := by
      have := congrArg List.length hfst
      simpa [initState] using this
    constructor
    · rw [hres]
      simpa using hlen
    · intro pr hpr
      obtain ⟨i, hi, hpri⟩ := List.mem_iff_getElem.mp hpr
      have hiz : i < items.length ∧
          i < (computeHeightsToFit items minPx maxPx budgetPx gapPx).length := by
        simp only [List.length_zip] at hi
        omega
      obtain ⟨hi1, hi2⟩ := hiz
      have hstate : i < (redistribute minPx maxPx 2000
          (initState items minPx maxPx budgetPx gapPx)
          (initDelta items minPx maxPx budgetPx gapPx)).1.length := by
        rw [hlen]; exact hi1
      have hms : i < ((redistribute minPx maxPx 2000
          (initState items minPx maxPx budgetPx gapPx)
          (initDelta items minPx maxPx budgetPx gapPx)).1.map Prod.snd).length := by
        simpa using hstate
      rw [List.getElem_zip] at hpri
      have hsnd : (computeHeightsToFit items minPx maxPx budgetPx gapPx)[i]
          = ((redistribute minPx maxPx 2000
              (initState items minPx maxPx budgetPx gapPx)
              (initDelta items minPx maxPx budgetPx gapPx)).1[i]).2 := by
        have e : (computeHeightsToFit items minPx maxPx budgetPx gapPx)[i]
            = ((redistribute minPx maxPx 2000
                (initState items minPx maxPx budgetPx gapPx)
                (initDelta items minPx maxPx budgetPx gapPx)).1.map Prod.snd)[i] := by
          simp only [hres]
        rw [e, List.getElem_map]
      have hflag := redistribute_getElem_fst items minPx maxPx budgetPx gapPx i hstate hi1
      have hmem : (redistribute minPx maxPx 2000
          (initState items minPx maxPx budgetPx gapPx)
          (initDelta items minPx maxPx budgetPx gapPx)).1[i]
          ∈ (redistribute minPx maxPx 2000
              (initState items minPx maxPx budgetPx gapPx)
              (initDelta items minPx maxPx budgetPx gapPx)).1 :=
        List.getElem_mem hstate
      have hgapR := redistribute_gap minPx maxPx gapPx 2000
        (initState items minPx maxPx budgetPx gapPx)
        (initDelta items minPx maxPx budgetPx gapPx)
        (initState_gap items minPx maxPx budgetPx gapPx) _ hmem
      have hloR := redistribute_lower minPx maxPx 2000
        (initState items minPx maxPx budgetPx gapPx)
        (initDelta items minPx maxPx budgetPx gapPx)
        (initState_lower items minPx maxPx budgetPx gapPx) _ hmem
      have hupR := redistribute_upper minPx maxPx 2000
        (initState items minPx maxPx budgetPx gapPx)
        (initDelta items minPx maxPx budgetPx gapPx)
        (initState_upper items minPx maxPx budgetPx gapPx hmm) _ hmem
      subst hpri
      refine ⟨fun hg => ?_, fun hg => ⟨?_, ?_⟩⟩
      · rw [hsnd]
        exact hgapR (by rw [hflag]; exact hg)
      · rw [hsnd]
        exact hloR (by rw [hflag]; exact hg)
      · rw [hsnd]
        exact hupR (by rw [hflag]; exact hg)

/-- Witness for C4: one gap and one zero-size non-gap item. -/
theorem claimC4_witness :
    (44 : Int) ≤ 140 ∧
    ((computeHeightsToFit [⟨0, false⟩, ⟨7, true⟩] 44 140 300 52).length
        = ([⟨0, false⟩, ⟨7, true⟩] : List HItem).length ∧
      ∀ pr ∈ ([⟨0, false⟩, ⟨7, true⟩] : List HItem).zip
          (computeHeightsToFit [⟨0, false⟩, ⟨7, true⟩] 44 140 300 52),
        (pr.1.isGap = true → pr.2 = 52) ∧
        (pr.1.isGap = false → 44 ≤ pr.2 ∧ pr.2 ≤ 140)) :=
  ⟨by decide, claimC4_extent_bounds [⟨0, false⟩, ⟨7, true⟩] 44 140 300 52 (by decide)⟩

/-- Claim C10: `computeHeightsToFit` is total on every item list.  The
divisor of the proportional split (`sumSize`, after the `|| 1` guard of
the source) is at least 1, so the division never divides by zero; a
non-gap item of size 0 enters the split as size 1
(`Math.max(it.size, 1)`), and every non-gap item — in particular one of
size 0 — receives at least `minExtent`. -/
theorem claimC10_total_min_extent (items : List HItem) (minPx maxPx budgetPx gapPx : Int) :
    1 ≤ sumSizeOf items ∧
    ∀ pr ∈ items.zip (computeHeightsToFit items minPx maxPx budgetPx gapPx),
      pr.1.isGap = false → minPx ≤ pr.2 := by
  constructor
  · rw [sumSizeOf]
    by_cases h : (items.map sizeOfItem).sum = 0
    · simp [h]
    · rw [if_neg h]
      have hge : 0 ≤ (items.map sizeOfItem).sum := by
        apply List.sum_nonneg
        intro x hx
        obtain ⟨it, _, rfl⟩ := List.mem_map.mp hx
        rw [sizeOfItem]
        by_cases hgap : it.isGap
        · simp [hgap]
        · simp only [hgap, if_false]
          exact le_trans zero_le_one (le_max_right _ _)
      omega
  · by_cases hnil : items.isEmpty
    · rw [List.isEmpty_iff] at hnil
      subst hnil
      simp [computeHeightsToFit]
    · intro pr hpr
      obtain ⟨i, hi, hpri⟩ := List.mem_iff_getElem.mp hpr
      have hres : computeHeightsToFit items minPx maxPx budgetPx gapPx
          = (redistribute minPx maxPx 2000
              (initState items minPx maxPx budgetPx gapPx)
              (initDelta items minPx maxPx budgetPx gapPx)).1.map Prod.snd := by
        rw [computeHeightsToFit, if_neg (by simpa using hnil)]
      have hfst := redistribute_map_fst minPx maxPx 2000
        (initState items minPx maxPx budgetPx gapPx)
        (initDelta items minPx maxPx budgetPx gapPx)
      have hlen : (redistribute minPx maxPx 2000
          (initState items minPx maxPx budgetPx gapPx)
          (initDelta items minPx maxPx budgetPx gapPx)).1.length = items.length := by
        have := congrArg List.length hfst
        simpa [initState] using this
      have hiz : i < items.length ∧
          i < (computeHeightsToFit items minPx maxPx budgetPx gapPx).length := by
        simp only [List.length_zip] at hi
        omega
      obtain ⟨hi1, hi2⟩ := hiz
      have hstate : i < (redistribute minPx maxPx 2000
          (initState items minPx maxPx budgetPx gapPx)
          (initDelta items minPx maxPx budgetPx gapPx)).1.length := by
        rw [hlen]; exact hi1
      have hms : i < ((redistribute minPx maxPx 2000
          (initState items minPx maxPx budgetPx gapPx)
          (initDelta items minPx maxPx budgetPx gapPx)).1.map Prod.snd).length := by
        simpa using hstate
      rw [List.getElem_zip] at hpri
      have hsnd : (computeHeightsToFit items minPx maxPx budgetPx gapPx)[i]
          = ((redistribute minPx maxPx 2000
              (initState items minPx maxPx budgetPx gapPx)
              (initDelta items minPx maxPx budgetPx gapPx)).1[i]).2 := by
        have e : (computeHeightsToFit items minPx maxPx budgetPx gapPx)[i]
            = ((redistribute minPx maxPx 2000
                (initState items minPx maxPx budgetPx gapPx)
                (initDelta items minPx maxPx budgetPx gapPx)).1.map Prod.snd)[i] := by
          simp only [hres]
        rw [e, List.getElem_map]
      have hflag := redistribute_getElem_fst items minPx maxPx budgetPx gapPx i hstate hi1
      have hmem : (redistribute minPx maxPx 2000
          (initState items minPx maxPx budgetPx gapPx)
          (initDelta items minPx maxPx budgetPx gapPx)).1[i]
          ∈ (redistribute minPx maxPx 2000
              (initState items minPx maxPx budgetPx gapPx)
              (initDelta items minPx maxPx budgetPx gapPx)).1 :=
        List.getElem_mem hstate
      have hloR := redistribute_lower minPx maxPx 2000
        (initState items minPx maxPx budgetPx gapPx)
        (initDelta items minPx maxPx budgetPx gapPx)
        (initState_lower items minPx maxPx budgetPx gapPx) _ hmem
      subst hpri
      intro hg
      rw [hsnd]
      exact hloR (by rw [hflag]; exact hg)

/-- Witness for C10: a zero-size non-gap item with `minExtent > maxExtent`
still receives at least `minExtent`, and the divisor is positive. -/
theorem claimC10_witness :
    1 ≤ sumSizeOf [⟨0, false⟩] ∧
    ∀ pr ∈ ([⟨0, false⟩] : List HItem).zip (computeHeightsToFit [⟨0, false⟩] 60 40 0 9),
      pr.1.isGap = false → 60 ≤ pr.2 :=
  claimC10_total_min_extent [⟨0, false⟩] 60 40 0 9

/-! ### Lemmas about the gap synthesizer -/

theorem curAfter_cons (cur : Int) (k : RNode) (ks : List RNode) :
    curAfter cur (k :: ks) = curAfter (max cur k.stop) ks := rfl

theorem curAfter_ge (kids : List RNode) : ∀ cur : Int, cur ≤ curAfter cur kids := by
  induction kids with
  | nil => intro cur; simp [curAfter]
  | cons k ks ih =>
    intro cur
    rw [curAfter_cons]
    exact le_trans (le_max_left _ _) (ih _)

theorem stop_le_curAfter (kids : List RNode) :
    ∀ cur : Int, ∀ k ∈ kids, k.stop ≤ curAfter cur kids := by
  induction kids with
  | nil => intro cur k hk; simp at hk
  | cons k ks ih =>
    intro cur j hj
    rw [curAfter_cons]
    rcases List.mem_cons.mp hj with rfl | hj
    · exact le_trans (le_max_right _ _) (curAfter_ge ks _)
    · exact ih _ j hj

theorem curAfter_le (kids : List RNode) :
    ∀ (cur b : Int), cur ≤ b → (∀ k ∈ kids, k.stop ≤ b) → curAfter cur kids ≤ b := by
  induction kids with
  | nil => intro cur b h _; simpa [curAfter] using h
  | cons k ks ih =>
    intro cur b h1 h2
    rw [curAfter_cons]
    exact ih _ _ (max_le h1 (h2 k (List.mem_cons_self _ _)))
      (fun j hj => h2 j (List.mem_cons_of_mem _ hj))

/-- Every gap the scan emits is strictly nonempty, has `size = end -
start` and carries the `_isGap` marker, with no hypotheses on the
children: the head gap is guarded by `k.start > cur` and the trailing
one by `cur < root.end`. -/
theorem gapsLoop_pos (rootId : List Char) (kids : List RNode) :
    ∀ cur : Int, ∀ g ∈ gapsLoop rootId cur kids,
      g.start < g.stop ∧ g.size = g.stop - g.start ∧ g.isGap = true := by
  induction kids with
  | nil => intro cur g hg; simp [gapsLoop] at hg
  | cons k ks ih =>
    intro cur g hg
    by_cases h : cur < k.start
    · rw [gapsLoop, if_pos h] at hg
      rcases List.mem_cons.mp hg with rfl | hg
      · refine ⟨h, ?_, rfl⟩
        simp [mkGap]
      · exact ih _ g hg
    · rw [gapsLoop, if_neg h] at hg
      exact ih _ g hg

/-- Every gap the scan emits lies between the initial cursor and the
final cursor (children need `start ≤ end` for the head gap's right
endpoint to stay below the advancing cursor). -/
theorem gapsLoop_bounds (rootId : List Char) (kids : List RNode)
    (hsz : ∀ k ∈ kids, k.start ≤ k.stop) :
    ∀ cur : Int, ∀ g ∈ gapsLoop rootId cur kids,
      cur ≤ g.start ∧ g.stop ≤ curAfter cur kids := by
  induction kids with
  | nil => intro cur g hg; simp [gapsLoop] at hg
  | cons k ks ih =>
    intro cur g hg
    have hsz' : ∀ j ∈ ks, j.start ≤ j.stop := fun j hj => hsz j (List.mem_cons_of_mem _ hj)
    have hszk : k.start ≤ k.stop := hsz k (List.mem_cons_self _ _)
    rw [curAfter_cons]
    by_cases h : cur < k.start
    · rw [gapsLoop, if_pos h] at hg
      rcases List.mem_cons.mp hg with rfl | hg
      · refine ⟨le_refl _, ?_⟩
        simp only [mkGap]
        exact le_trans (le_trans hszk (le_max_right _ _)) (curAfter_ge ks _)
      · obtain ⟨h1, h2⟩ := ih hsz' _ g hg
        exact ⟨le_trans (le_max_left _ _) h1, h2⟩
    · rw [gapsLoop, if_neg h] at hg
      obtain ⟨h1, h2⟩ := ih hsz' _ g hg
      exact ⟨le_trans (le_max_left _ _) h1, h2⟩

/-- The adjacent non-overlap chain, together with `start ≤ end` for each
child, yields the full pairwise ordering of the children. -/
theorem pairwise_of_chain (kids : List RNode)
    (hsz : ∀ k ∈ kids, k.start ≤ k.stop) (hch : List.Chain' beforeR kids) :
    List.Pairwise beforeR kids := by
  induction kids with
  | nil => simp
  | cons k ks ih =>
    obtain ⟨hhead, htail⟩ := List.chain'_cons'.mp hch
    have hp := ih (fun j hj => hsz j (List.mem_cons_of_mem _ hj)) htail
    refine List.pairwise_cons.mpr ⟨?_, hp⟩
    intro j hj
    cases ks with
    | nil => simp at hj
    | cons h1 rest =>
      have hk1 : beforeR k h1 := hhead h1 rfl
      rcases List.mem_cons.mp hj with rfl | hj
      · exact hk1
      · have h2 := (List.pairwise_cons.mp hp).1 j hj
        have h3 := hsz h1 (List.mem_cons_of_mem _ (List.mem_cons_self _ _))
        unfold beforeR at hk1 h2 ⊢
        omega

/-- Gaps of the scan are disjoint from every child, in the strong
interval-order sense. -/
theorem gapsLoop_disjoint_kids (rootId : List Char) (kids : List RNode)
    (hsz : ∀ k ∈ kids, k.start ≤ k.stop)
    (hpw : List.Pairwise beforeR kids) :
    ∀ cur : Int, ∀ g ∈ gapsLoop rootId cur kids, ∀ k ∈ kids,
      g.stop ≤ k.start ∨ k.stop ≤ g.start := by
  induction kids with
  | nil => intro cur g hg; simp [gapsLoop] at hg
  | cons k ks ih =>
    intro cur g hg j hj
    have hsz' : ∀ i ∈ ks, i.start ≤ i.stop := fun i hi => hsz i (List.mem_cons_of_mem _ hi)
    have hszk : k.start ≤ k.stop := hsz k (List.mem_cons_self _ _)
    obtain ⟨hk1, hpw'⟩ := List.pairwise_cons.mp hpw
    by_cases h : cur < k.start
    · rw [gapsLoop, if_pos h] at hg
      rcases List.mem_cons.mp hg with rfl | hg
      · -- the head gap ends exactly where `k` starts
        rcases List.mem_cons.mp hj with rfl | hj
        · left; simp [mkGap]
        · left
          have := hk1 j hj
          unfold beforeR at this
          simp only [mkGap]
          omega
      · rcases List.mem_cons.mp hj with rfl | hj
        · right
          have := (gapsLoop_bounds rootId ks hsz' _ g hg).1
          omega
        · exact ih hsz' hpw' _ g hg j hj
    · rw [gapsLoop, if_neg h] at hg
      rcases List.mem_cons.mp hj with rfl | hj
      · right
        have := (gapsLoop_bounds rootId ks hsz' _ g hg).1
        omega
      · exact ih hsz' hpw' _ g hg j hj

/-- The gaps of the scan are themselves pairwise ordered. -/
theorem gapsLoop_pairwise (rootId : List Char) (kids : List RNode)
    (hsz : ∀ k ∈ kids, k.start ≤ k.stop) :
    ∀ cur : Int, List.Pairwise beforeR (gapsLoop rootId cur kids) := by
  induction kids with
  | nil => intro cur; simp [gapsLoop]
  | cons k ks ih =>
    intro cur
    have hsz' : ∀ i ∈ ks, i.start ≤ i.stop := fun i hi => hsz i (List.mem_cons_of_mem _ hi)
    have hszk : k.start ≤ k.stop := hsz k (List.mem_cons_self _ _)
    by_cases h : cur < k.start
    · rw [gapsLoop, if_pos h]
      refine List.pairwise_cons.mpr ⟨?_, ih hsz' _⟩
      intro g hg
      have h1 := (gapsLoop_bounds rootId ks hsz' _ g hg).1
      unfold beforeR
      simp only [mkGap]
      omega
    · rw [gapsLoop, if_neg h]
      exact ih hsz' _

/-- The sweep invariant: starting from cursor `cur` (a lower bound on
every child's start, with `a` at or past the cursor), the addresses
strictly below the final cursor are exactly those covered by a child or
by an emitted gap. -/
theorem gapsLoop_cover (rootId : List Char) (kids : List RNode)
    (hpw : List.Pairwise beforeR kids) (hsz : ∀ k ∈ kids, k.start ≤ k.stop) :
    ∀ cur : Int, (∀ k ∈ kids, cur ≤ k.start) → ∀ a : Int, cur ≤ a →
    (a < curAfter cur kids ↔
      ((∃ k ∈ kids, memR k a) ∨ (∃ g ∈ gapsLoop rootId cur kids, memR g a))) := by
  induction kids with
  | nil =>
    intro cur hb a ha
    simp only [curAfter, List.foldl_nil, gapsLoop]
    simp
    omega
  | cons k ks ih =>
    intro cur hb a ha
    obtain ⟨hk1, hpw'⟩ := List.pairwise_cons.mp hpw
    have hsz' : ∀ j ∈ ks, j.start ≤ j.stop := fun j hj => hsz j (List.mem_cons_of_mem _ hj)
    have hszk : k.start ≤ k.stop := hsz k (List.mem_cons_self _ _)
    have hb' : ∀ j ∈ ks, max cur k.stop ≤ j.start := by
      intro j hj
      have := hk1 j hj
      unfold beforeR at this
      exact max_le (hb j (List.mem_cons_of_mem _ hj)) this
    rw [curAfter_cons]
    by_cases hlt : cur < k.start
    · rw [gapsLoop, if_pos hlt]
      by_cases h1 : a < k.start
      · have hL : a < curAfter (max cur k.stop) ks :=
          lt_of_lt_of_le (lt_of_lt_of_le h1 (le_trans hszk (le_max_right _ _)))
            (curAfter_ge ks _)
        have hg : memR (mkGap rootId cur k.start) a := ⟨ha, h1⟩
        exact iff_of_true hL (Or.inr ⟨_, List.mem_cons_self _ _, hg⟩)
      · by_cases h2 : a < k.stop
        · have hL : a < curAfter (max cur k.stop) ks :=
            lt_of_lt_of_le (lt_of_lt_of_le h2 (le_max_right _ _)) (curAfter_ge ks _)
          have hk : memR k a := ⟨by omega, h2⟩
          exact iff_of_true hL (Or.inl ⟨k, List.mem_cons_self _ _, hk⟩)
        · have ha' : max cur k.stop ≤ a := max_le ha (by omega)
          have hIH := ih hpw' hsz' _ hb' a ha'
          rw [hIH]
          constructor
          · rintro (⟨j, hj, hm⟩ | ⟨g, hg, hm⟩)
            · exact Or.inl ⟨j, List.mem_cons_of_mem _ hj, hm⟩
            · exact Or.inr ⟨g, List.mem_cons_of_mem _ hg, hm⟩
          · rintro (⟨j, hj, hm⟩ | ⟨g, hg, hm⟩)
            · rcases List.mem_cons.mp hj with rfl | hj
              · exact absurd hm.2 h2
              · exact Or.inl ⟨j, hj, hm⟩
            · rcases List.mem_cons.mp hg with rfl | hg
              · exact absurd hm.2 (by simp [mkGap]; omega)
              · exact Or.inr ⟨g, hg, hm⟩
    · rw [gapsLoop, if_neg hlt]
      by_cases h2 : a < k.stop
      · have hL : a < curAfter (max cur k.stop) ks :=
          lt_of_lt_of_le (lt_of_lt_of_le h2 (le_max_right _ _)) (curAfter_ge ks _)
        have hk : memR k a := ⟨by omega, h2⟩
        exact iff_of_true hL (Or.inl ⟨k, List.mem_cons_self _ _, hk⟩)
      · have ha' : max cur k.stop ≤ a := max_le ha (by omega)
        have hIH := ih hpw' hsz' _ hb' a ha'
        rw [hIH]
        constructor
        · rintro (⟨j, hj, hm⟩ | ⟨g, hg, hm⟩)
          · exact Or.inl ⟨j, List.mem_cons_of_mem _ hj, hm⟩
          · exact Or.inr ⟨g, hg, hm⟩
        · rintro (⟨j, hj, hm⟩ | ⟨g, hg, hm⟩)
          · rcases List.mem_cons.mp hj with rfl | hj
            · exact absurd hm.2 h2
            · exact Or.inl ⟨j, hj, hm⟩
          · exact Or.inr ⟨g, hg, hm⟩

/-! ### Claim theorems for the gap synthesizer -/

/-- Claim C1 (amended): for a parent and a *nonempty* ordered child list
(sorted via the adjacent ordering, contained in the parent, each child
with `start ≤ end`), the synthesized gaps are pairwise disjoint, disjoint
from every child, and together with the children they exactly tile
`[parent.start, parent.end)`.  The original claim quantified over all
child lists; it fails for the empty list because the source returns `[]`
immediately (see the counterexample). -/
theorem claimC1_gaps_tile (root : RNode) (kids : List RNode)
    (hne : kids ≠ [])
    (hch : List.Chain' beforeR kids)
    (hsz : ∀ k ∈ kids, k.start ≤ k.stop)
    (hcont : ∀ k ∈ kids, root.start ≤ k.start ∧ k.stop ≤ root.stop) :
    List.Pairwise (fun g h => ∀ a : Int, memR g a → ¬ memR h a)
      (gapsFromChildren root kids) ∧
    (∀ g ∈ gapsFromChildren root kids, ∀ k ∈ kids, ∀ a : Int, memR g a → ¬ memR k a) ∧
    (∀ a : Int, (root.start ≤ a ∧ a < root.stop) ↔
      ((∃ k ∈ kids, memR k a) ∨ (∃ g ∈ gapsFromChildren root kids, memR g a))) := by
  have hpw : List.Pairwise beforeR kids := pairwise_of_chain kids hsz hch
  have hb : ∀ k ∈ kids, root.start ≤ k.start := fun k hk => (hcont k hk).1
  have hrs : root.start ≤ root.stop := by
    cases kids with
    | nil => exact absurd rfl hne
    | cons k0 ks =>
      have h1 := hcont k0 (List.mem_cons_self _ _)
      have h2 := hsz k0 (List.mem_cons_self _ _)
      omega
  have hcf1 : root.start ≤ curAfter root.start kids := curAfter_ge kids _
  have hcf2 : curAfter root.start kids ≤ root.stop :=
    curAfter_le kids _ _ hrs (fun k hk => (hcont k hk).2)
  have hlist : gapsFromChildren root kids
      = gapsLoop root.id root.start kids ++
        (if curAfter root.start kids < root.stop then
          [mkGap root.id (curAfter root.start kids) root.stop]
        else []) := by
    rw [gapsFromChildren, if_neg (by simpa [List.isEmpty_iff] using hne)]
  have hbnd := gapsLoop_bounds root.id kids hsz root.start
  have horder : List.Pairwise beforeR (gapsFromChildren root kids) := by
    rw [hlist]
    rw [List.pairwise_append]
    refine ⟨gapsLoop_pairwise root.id kids hsz _, ?_, ?_⟩
    · by_cases hc : curAfter root.start kids < root.stop
      · simp [hc]
      · simp [hc]
    · intro g hg t ht
      have h1 := (hbnd g hg).2
      by_cases hc : curAfter root.start kids < root.stop
      · rw [if_pos hc] at ht
        simp only [List.mem_singleton] at ht
        subst ht
        unfold beforeR
        simpa [mkGap] using h1
      · rw [if_neg hc] at ht
        simp at ht
  refine ⟨?_, ?_, ?_⟩
  · refine horder.imp ?_
    intro g h hr a hga hha
    unfold beforeR at hr
    unfold memR at hga hha
    omega
  · intro g hg k hk a hga hka
    rw [hlist] at hg
    rcases List.mem_append.mp hg with hgb | hgt
    · have := gapsLoop_disjoint_kids root.id kids hsz hpw root.start g hgb k hk
      unfold memR at hga hka
      omega
    · by_cases hc : curAfter root.start kids < root.stop
      · rw [if_pos hc] at hgt
        simp only [List.mem_singleton] at hgt
        subst hgt
        have := stop_le_curAfter kids root.start k hk
        unfold memR at hga hka
        simp only [mkGap] at hga
        omega
      · rw [if_neg hc] at hgt
        simp at hgt
  · intro a
    have hcover := gapsLoop_cover root.id kids hpw hsz root.start hb a
    constructor
    · rintro ⟨h1, h2⟩
      by_cases hf : a < curAfter root.start kids
      · rcases (hcover h1).mp hf with ⟨k, hk, hm⟩ | ⟨g, hg, hm⟩
        · exact Or.inl ⟨k, hk, hm⟩
        · refine Or.inr ⟨g, ?_, hm⟩
          rw [hlist]
          exact List.mem_append_left _ hg
      · have hc : curAfter root.start kids < root.stop := by omega
        refine Or.inr ⟨mkGap root.id (curAfter root.start kids) root.stop, ?_, ?_⟩
        · rw [hlist, if_pos hc]
          exact List.mem_append_right _ (List.mem_singleton.mpr rfl)
        · exact ⟨by simp only [mkGap]; omega, by simp only [mkGap]; exact h2⟩
    · rintro (⟨k, hk, hm⟩ | ⟨g, hg, hm⟩)
      · have h1 := hcont k hk
        unfold memR at hm
        omega
      · rw [hlist] at hg
        rcases List.mem_append.mp hg with hgb | hgt
        · have h1 := hbnd g hgb
          unfold memR at hm
          omega
        · by_cases hc : curAfter root.start kids < root.stop
          · rw [if_pos hc] at hgt
            simp only [List.mem_singleton] at hgt
            subst hgt
            unfold memR at hm
            simp only [mkGap] at hm
            omega
          · rw [if_neg hc] at hgt
            simp at hgt

/-- Counterexample to C1 as stated: a childless parent of positive size.
The source returns no gaps at all for an empty child list, so the union
of children and gaps leaves `[parent.start, parent.end)` uncovered. -/
theorem claimC1_counterexample :
    ¬ (∀ a : Int,
        ((⟨[], [], 0, 8, 8, false⟩ : RNode).start ≤ a
            ∧ a < (⟨[], [], 0, 8, 8, false⟩ : RNode).stop) ↔
          ((∃ k ∈ ([] : List RNode), memR k a) ∨
            (∃ g ∈ gapsFromChildren ⟨[], [], 0, 8, 8, false⟩ [], memR g a))) := by
  intro h
  have h0 := (h 0).mp (by constructor <;> decide)
  simp [gapsFromChildren] at h0

/-- Witness for C1 at the spec's §8 scenario: root `[0, 0x1000_0000)`
with children `A [0, 0x4_0000)` and `B [0x8_0000, 0xC_0000)`. -/
theorem claimC1_witness :
    (([⟨[], [], 0, 0x40000, 0x40000, false⟩,
        ⟨[], [], 0x80000, 0xC0000, 0x40000, false⟩] : List RNode) ≠ []) ∧
    (∀ a : Int,
      ((⟨[], [], 0, 0x10000000, 0x10000000, false⟩ : RNode).start ≤ a
          ∧ a < (⟨[], [], 0, 0x10000000, 0x10000000, false⟩ : RNode).stop) ↔
        ((∃ k ∈ ([⟨[], [], 0, 0x40000, 0x40000, false⟩,
            ⟨[], [], 0x80000, 0xC0000, 0x40000, false⟩] : List RNode), memR k a) ∨
          (∃ g ∈ gapsFromChildren ⟨[], [], 0, 0x10000000, 0x10000000, false⟩
              [⟨[], [], 0, 0x40000, 0x40000, false⟩,
                ⟨[], [], 0x80000, 0xC0000, 0x40000, false⟩], memR g a))) :=
  ⟨by decide,
    (claimC1_gaps_tile ⟨[], [], 0, 0x10000000, 0x10000000, false⟩
      [⟨[], [], 0, 0x40000, 0x40000, false⟩,
        ⟨[], [], 0x80000, 0xC0000, 0x40000, false⟩]
      (by decide) (by norm_num [List.chain'_cons, beforeR]) (by decide) (by decide)).2.2⟩

/-- Claim C2 (amended): a childless parent yields *zero* gaps regardless
of its size — the source's first line is `if (kids.length === 0) return
[]`, so the spec's "exactly one gap spanning the full range" branch does
not exist in the code. -/
theorem claimC2_childless_no_gaps (root : RNode) :
    gapsFromChildren root [] = [] := rfl

/-- Counterexample to C2 as stated: a childless parent with positive
size gets zero gaps, not one full-range gap. -/
theorem claimC2_counterexample :
    (0 : Int) < (⟨[], [], 0, 16, 16, false⟩ : RNode).size ∧
    gapsFromChildren ⟨[], [], 0, 16, 16, false⟩ [] = [] :=
  ⟨by decide, rfl⟩

/-- Claim C9: every gap returned by `gapsFromChildren` has strictly
positive size (`start < end`), with no hypotheses on the input: a gap is
emitted only under `k.start > cur` or `cur < root.end`. -/
theorem claimC9_gaps_positive (root : RNode) (kids : List RNode) :
    ∀ g ∈ gapsFromChildren root kids, 0 < g.size ∧ g.start < g.stop := by
  intro g hg
  rw [gapsFromChildren] at hg
  by_cases h : kids.isEmpty
  · rw [if_pos h] at hg
    simp at hg
  · rw [if_neg h] at hg
    rcases List.mem_append.mp hg with hb | ht
    · obtain ⟨h1, h2, _⟩ := gapsLoop_pos root.id kids root.start g hb
      constructor
      · omega
      · exact h1
    · by_cases hc : curAfter root.start kids < root.stop
      · rw [if_pos hc] at ht
        simp only [List.mem_singleton] at ht
        subst ht
        simp only [mkGap]
        omega
      · rw [if_neg hc] at ht
        simp at ht

/-- Witness for C9: parent `[0,16)` with one child `[4,8)`; the first
synthesized gap `[0,4)` has positive size. -/
theorem claimC9_witness :
    (mkGap [] 0 4 ∈ gapsFromChildren ⟨[], [], 0, 16, 16, false⟩
        [⟨[], [], 4, 8, 4, false⟩]) ∧
    0 < (mkGap [] 0 4).size ∧ (mkGap [] 0 4).start < (mkGap [] 0 4).stop :=
  ⟨by decide,
    claimC9_gaps_positive ⟨[], [], 0, 16, 16, false⟩ [⟨[], [], 4, 8, 4, false⟩]
      (mkGap [] 0 4) (by decide)⟩

/-! ### Validator and flattener: basic machinery -/

mutual

/-- Structural induction for the rose-tree `Node`. -/
theorem nodeInduction (P : Node → Prop)
    (h : ∀ nm st sz cs, (∀ c ∈ cs, P c) → P (Node.mk nm st sz cs)) : ∀ n, P n
  | Node.mk nm st sz cs => h nm st sz cs (nodeInductionList P h cs)

theorem nodeInductionList (P : Node → Prop)
    (h : ∀ nm st sz cs, (∀ c ∈ cs, P c) → P (Node.mk nm st sz cs)) :
    ∀ l : List Node, ∀ c ∈ l, P c
  | t :: ts, c, hc => by
    rcases List.mem_cons.mp hc with rfl | hc2
    · exact nodeInduction P h c
    · exact nodeInductionList P h ts c hc2

end

theorem mem_allNodesList (cs : List Node) (m : Node) :
    m ∈ allNodesList cs ↔ ∃ c ∈ cs, m ∈ allNodes c := by
  induction cs with
  | nil => simp [allNodesList]
  | cons c cs ih =>
    rw [allNodesList]
    simp [ih]

theorem self_mem_allNodes (n : Node) : n ∈ allNodes n := by
  cases n with
  | mk nm st sz cs => rw [allNodes]; exact List.mem_cons_self _ _

theorem allNodes_sub (nm : List Char) (st sz : Int) (cs : List Node) (c : Node)
    (hc : c ∈ cs) : ∀ m ∈ allNodes c, m ∈ allNodes (Node.mk nm st sz cs) := by
  intro m hm
  rw [allNodes]
  exact List.mem_cons_of_mem _ ((mem_allNodesList cs m).mpr ⟨c, hc, hm⟩)

/-! ### Claim C6: the shape of validator messages -/

theorem overlapPairs_shape (path : List Char) (n : Node) (kids : List Node) :
    ∀ m ∈ overlapPairs path n kids, ∃ a b, m = overlapMsg path n a b := by
  intro m hm
  rw [overlapPairs] at hm
  obtain ⟨ab, _, heq⟩ := List.mem_filterMap.mp hm
  by_cases hcond : ab.2.start < ab.1.stop
  · rw [if_pos hcond] at heq
    exact ⟨ab.1, ab.2, (Option.some_inj.mp heq).symm⟩
  · rw [if_neg hcond] at heq
    exact absurd heq (by simp)

theorem validateKids_shape (n0 : Node) (path : List Char) (cs : List Node)
    (ih : ∀ c ∈ cs, ∀ path', ∀ m ∈ validate_tree c path',
      (∃ p par k, m = containMsg p par k) ∨ (∃ p par a b, m = overlapMsg p par a b)) :
    ∀ m ∈ validateKids n0 path cs,
      (∃ p par k, m = containMsg p par k) ∨ (∃ p par a b, m = overlapMsg p par a b) := by
  induction cs with
  | nil => intro m hm; rw [validateKids] at hm; simp at hm
  | cons c cs ihl =>
    intro m hm
    rw [validateKids] at hm
    rcases List.mem_append.mp hm with hm | hm
    · rcases List.mem_append.mp hm with hm | hm
      · by_cases hcond : c.start < n0.start ∨ n0.stop < c.stop
        · rw [if_pos hcond] at hm
          rw [List.mem_singleton] at hm
          exact Or.inl ⟨path, n0, c, hm⟩
        · rw [if_neg hcond] at hm
          simp at hm
      · exact ih c (List.mem_cons_self _ _) _ m hm
    · exact ihl (fun c2 hc2 => ih c2 (List.mem_cons_of_mem _ hc2)) m hm

/-- Claim C6 (amended): every message `validate_tree` returns is an
instance of one of the two f-string templates of the source: a
containment message (naming the parent path, the offending child's name
and the hex ranges of child and parent) or an overlap message (naming
the parent path and the two implicated child names, with no hex
ranges).  The original claim — both kinds carry two child names and hex
ranges — fails: see the counterexample, an overlap message with no hex
range at all. -/
theorem claimC6_message_shapes (n : Node) :
    ∀ (path : List Char), ∀ m ∈ validate_tree n path,
      (∃ p par k, m = containMsg p par k) ∨ (∃ p par a b, m = overlapMsg p par a b) := by
  induction n using nodeInduction with
  | h nm st sz cs ih =>
    intro path m hm
    rw [validate_tree] at hm
    rcases List.mem_append.mp hm with hm | hm
    · exact validateKids_shape (Node.mk nm st sz cs) path cs
        (fun c hc => ih c hc) m hm
    · obtain ⟨a, b, rfl⟩ := overlapPairs_shape path (Node.mk nm st sz cs) cs m hm
      exact Or.inr ⟨path, Node.mk nm st sz cs, a, b, rfl⟩

/-- Witness for C6: the spec's overlap scenario, parent `R` with
children `A [0,5)` and `B [3,7)`. -/
theorem claimC6_witness :
    (overlapMsg ("root").toList
        (Node.mk ("R").toList 0 10 [Node.mk ("A").toList 0 5 [], Node.mk ("B").toList 3 4 []])
        (Node.mk ("A").toList 0 5 []) (Node.mk ("B").toList 3 4 [])
      ∈ validate_tree
        (Node.mk ("R").toList 0 10 [Node.mk ("A").toList 0 5 [], Node.mk ("B").toList 3 4 []])
        ("root").toList) ∧
    ((∃ p par k, overlapMsg ("root").toList
        (Node.mk ("R").toList 0 10 [Node.mk ("A").toList 0 5 [], Node.mk ("B").toList 3 4 []])
        (Node.mk ("A").toList 0 5 []) (Node.mk ("B").toList 3 4 [])
        = containMsg p par k) ∨
      (∃ p par a b, overlapMsg ("root").toList
        (Node.mk ("R").toList 0 10 [Node.mk ("A").toList 0 5 [], Node.mk ("B").toList 3 4 []])
        (Node.mk ("A").toList 0 5 []) (Node.mk ("B").toList 3 4 [])
        = overlapMsg p par a b)) :=
  ⟨by decide,
    claimC6_message_shapes
      (Node.mk ("R").toList 0 10 [Node.mk ("A").toList 0 5 [], Node.mk ("B").toList 3 4 []])
      ("root").toList _ (by decide)⟩

/-- Counterexample to C6 as stated: the overlap message for `A.end >
B.start` carries no hex-formatted range — it does not even contain the
character `x`, while every output of Python `hex` does. -/
theorem claimC6_counterexample :
    validate_tree
        (Node.mk ("R").toList 0 10 [Node.mk ("A").toList 0 5 [], Node.mk ("B").toList 3 4 []])
        ("root").toList
      = [("root/R: overlap between 'A' and 'B'").toList] ∧
    'x' ∉ ("root/R: overlap between 'A' and 'B'").toList := by
  constructor
  · decide
  · decide

/-- Supporting fact for the counterexample reading: every string Python
`hex` produces contains the character `x`. -/
theorem pyHex_contains_x (z : Int) : 'x' ∈ pyHex z := by
  cases z with
  | ofNat m =>
    rw [pyHex, pyHexNat]
    by_cases h : m = 0
    · rw [if_pos h]; decide
    · rw [if_neg h]
      exact List.mem_cons_of_mem _ (List.mem_cons_self _ _)
  | negSucc m =>
    rw [pyHex, pyHexNat]
    by_cases h : m + 1 = 0
    · rw [if_pos h]; decide
    · rw [if_neg h]
      exact List.mem_cons_of_mem _ (List.mem_cons_of_mem _ (List.mem_cons_self _ _))

/-! ### Claim C5, part 1: `hex` is injective and produces no `/` or `@` -/

theorem hexDigitsRev_decode : ∀ (fuel n : Nat), n ≤ fuel →
    unBase16 (hexDigitsRev fuel n) = n := by
  intro fuel
  induction fuel with
  | zero =>
    intro n h
    rw [hexDigitsRev, unBase16]
    omega
  | succ f ih =>
    intro n h
    rw [hexDigitsRev]
    by_cases h0 : n = 0
    · rw [if_pos h0, unBase16]
      omega
    · rw [if_neg h0, unBase16]
      have hdiv : n / 16 ≤ f := by
        have := Nat.div_lt_self (Nat.pos_of_ne_zero h0) (by norm_num : 1 < 16)
        omega
      rw [ih _ hdiv]
      omega

theorem hexDigitsRev_lt : ∀ (fuel n : Nat), ∀ d ∈ hexDigitsRev fuel n, d < 16 := by
  intro fuel
  induction fuel with
  | zero => intro n d hd; rw [hexDigitsRev] at hd; simp at hd
  | succ f ih =>
    intro n d hd
    rw [hexDigitsRev] at hd
    by_cases h0 : n = 0
    · rw [if_pos h0] at hd; simp at hd
    · rw [if_neg h0] at hd
      rcases List.mem_cons.mp hd with rfl | hd
      · omega
      · exact ih _ d hd

theorem hexVal_hexDigitChar : ∀ d, d < 16 → hexVal (hexDigitChar d) = d := by decide

theorem map_hexVal_map_hexDigitChar (ds : List Nat) (h : ∀ d ∈ ds, d < 16) :
    (ds.map hexDigitChar).map hexVal = ds := by
  induction ds with
  | nil => simp
  | cons d ds ih =>
    simp only [List.map_cons, List.cons.injEq]
    exact ⟨hexVal_hexDigitChar d (h d (List.mem_cons_self _ _)),
      ih (fun e he => h e (List.mem_cons_of_mem _ he))⟩

theorem pyHexNat_decode (n : Nat) :
    unBase16 ((((pyHexNat n).drop 2).reverse).map hexVal) = n := by
  by_cases h0 : n = 0
  · subst h0; decide
  · rw [pyHexNat, if_neg h0]
    have h1 : (('0' :: 'x' :: ((hexDigitsRev n n).reverse.map hexDigitChar)).drop 2)
        = (hexDigitsRev n n).reverse.map hexDigitChar := rfl
    rw [h1, ← List.map_reverse, List.reverse_reverse,
      map_hexVal_map_hexDigitChar _ (hexDigitsRev_lt n n)]
    exact hexDigitsRev_decode n n (le_refl n)

theorem pyHexNat_inj (m n : Nat) (h : pyHexNat m = pyHexNat n) : m = n := by
  have h1 := pyHexNat_decode m
  rw [h, pyHexNat_decode] at h1
  omega

theorem pyHexNat_head (n : Nat) : ∃ l, pyHexNat n = '0' :: l := by
  rw [pyHexNat]
  by_cases h0 : n = 0
  · rw [if_pos h0]; exact ⟨_, rfl⟩
  · rw [if_neg h0]; exact ⟨_, rfl⟩

theorem pyHex_inj (a b : Int) (h : pyHex a = pyHex b) : a = b := by
  cases a with
  | ofNat m =>
    cases b with
    | ofNat n =>
      rw [pyHex, pyHex] at h
      rw [pyHexNat_inj m n h]
    | negSucc n =>
      rw [pyHex, pyHex] at h
      obtain ⟨l, hl⟩ := pyHexNat_head m
      rw [hl] at h
      exact absurd (List.cons.injEq .. ▸ h).1 (by decide)
  | negSucc m =>
    cases b with
    | ofNat n =>
      rw [pyHex, pyHex] at h
      obtain ⟨l, hl⟩ := pyHexNat_head n
      rw [hl] at h
      exact absurd (List.cons.injEq .. ▸ h).1 (by decide)
    | negSucc n =>
      rw [pyHex, pyHex] at h
      have h2 := (List.cons.injEq .. ▸ h).2
      have h3 := pyHexNat_inj _ _ h2
      have h4 : m = n := by omega
      rw [h4]

theorem hexDigitChar_clean : ∀ d, d < 16 → hexDigitChar d ≠ '/' ∧ hexDigitChar d ≠ '@' := by
  decide

theorem pyHexNat_clean (n : Nat) : ∀ c ∈ pyHexNat n, c ≠ '/' ∧ c ≠ '@' := by
  rw [pyHexNat]
  by_cases h0 : n = 0
  · rw [if_pos h0]; decide
  · rw [if_neg h0]
    intro c hc
    rcases List.mem_cons.mp hc with rfl | hc
    · decide
    · rcases List.mem_cons.mp hc with rfl | hc
      · decide
      · obtain ⟨d, hd, rfl⟩ := List.mem_map.mp hc
        exact hexDigitChar_clean d (hexDigitsRev_lt n n d (List.mem_reverse.mp hd))

theorem pyHex_clean (z : Int) : ∀ c ∈ pyHex z, c ≠ '/' ∧ c ≠ '@' := by
  cases z with
  | ofNat m => exact pyHexNat_clean m
  | negSucc m =>
    intro c hc
    rw [pyHex] at hc
    rcases List.mem_cons.mp hc with rfl | hc
    · decide
    · exact pyHexNat_clean _ c hc

theorem pyHex_ne_nil (z : Int) : pyHex z ≠ [] := by
  cases z with
  | ofNat m =>
    obtain ⟨l, hl⟩ := pyHexNat_head m
    rw [pyHex, hl]
    simp
  | negSucc m =>
    rw [pyHex]
    simp

/-! ### Claim C5, part 2: tokens and joined paths are injective -/

theorem tokenOf_ne_nil (n : Node) : tokenOf n ≠ [] := by
  rw [tokenOf]
  simp

theorem tokenOf_no_slash (n : Node) (hn : '/' ∉ n.name) : '/' ∉ tokenOf n := by
  rw [tokenOf]
  intro h
  rcases List.mem_append.mp h with h | h
  · exact hn h
  · rcases List.mem_cons.mp h with h | h
    · exact absurd h.symm (by decide)
    · exact (pyHex_clean n.start '/' h).1 rfl

/-- Splitting at a separator character that occurs in neither prefix is
unambiguous. -/
theorem append_sep_inj (sep : Char) :
    ∀ (a c b d : List Char), sep ∉ a → sep ∉ c →
    a ++ sep :: b = c ++ sep :: d → a = c ∧ b = d := by
  intro a
  induction a with
  | nil =>
    intro c b d _ hc h
    cases c with
    | nil => simpa using h
    | cons y cs =>
      rw [List.nil_append, List.cons_append] at h
      have := (List.cons.injEq .. ▸ h).1
      exact absurd (this ▸ List.mem_cons_self y cs) hc
  | cons x as ih =>
    intro c b d ha hc h
    cases c with
    | nil =>
      rw [List.nil_append, List.cons_append] at h
      have := (List.cons.injEq .. ▸ h).1
      exact absurd (this ▸ List.mem_cons_self x as) ha
    | cons y cs =>
      rw [List.cons_append, List.cons_append] at h
      have h1 := (List.cons.injEq .. ▸ h).1
      have h2 := (List.cons.injEq .. ▸ h).2
      obtain ⟨e1, e2⟩ := ih cs b d (fun hx => ha (List.mem_cons_of_mem _ hx))
        (fun hx => hc (List.mem_cons_of_mem _ hx)) h2
      exact ⟨by rw [h1, e1], e2⟩

/-- The token `name@hex(start)` determines name and start: the suffix
after the *last* `@` is the hex rendering (which contains no `@`), even
when the name itself contains `@`. -/
theorem tokenOf_inj (n1 n2 : Node) (h : tokenOf n1 = tokenOf n2) :
    n1.name = n2.name ∧ n1.start = n2.start := by
  rw [tokenOf, tokenOf] at h
  have hrev := congrArg List.reverse h
  simp only [List.reverse_append, List.reverse_cons, List.append_assoc,
    List.singleton_append] at hrev
  have hsep : ∀ z : Int, '@' ∉ (pyHex z).reverse := by
    intro z hz
    exact (pyHex_clean z '@' (List.mem_reverse.mp hz)).2 rfl
  obtain ⟨e1, e2⟩ := append_sep_inj '@' _ _ _ _ (hsep n1.start) (hsep n2.start) hrev
  constructor
  · have := congrArg List.reverse e2
    simpa using this
  · apply pyHex_inj
    have := congrArg List.reverse e1
    simpa using this

theorem pyStrip_eq_self (c : Char) (l : List Char)
    (h1 : ∀ x ∈ l.head?, x ≠ c) (h2 : ∀ x ∈ l.getLast?, x ≠ c) :
    pyStrip c l = l := by
  rw [pyStrip]
  have e1 : l.dropWhile (fun x => x = c) = l := by
    cases l with
    | nil => rfl
    | cons a l2 =>
      rw [List.dropWhile_cons, if_neg]
      simpa using h1 a (by simp)
  rw [e1]
  have e2 : l.reverse.dropWhile (fun x => x = c) = l.reverse := by
    cases hrev : l.reverse with
    | nil => rfl
    | cons a l2 =>
      rw [List.dropWhile_cons, if_neg]
      have hl : l.getLast? = some a := by
        rw [← List.head?_reverse, hrev]
        rfl
      simpa using h2 a (by rw [hl]; rfl)
  rw [e2, List.reverse_reverse]

/-! ### Claim C5: every id ends in `@` followed by the hex start -/

/-- Dropping leading slashes never reaches past the `@` of a token,
whatever the name. -/
theorem dropWhile_slash_token (nm l : List Char) :
    (nm ++ '@' :: l).dropWhile (fun x => x = '/')
      = nm.dropWhile (fun x => x = '/') ++ '@' :: l := by
  induction nm with
  | nil =>
    rw [List.nil_append, List.dropWhile_nil, List.nil_append, List.dropWhile_cons,
      if_neg (by decide)]
  | cons a nm ih =>
    by_cases h : a = '/'
    · rw [List.cons_append, List.dropWhile_cons, if_pos (by simpa using h),
        List.dropWhile_cons, if_pos (by simpa using h), ih]
    · rw [List.cons_append, List.dropWhile_cons, if_neg (by simpa using h),
        List.dropWhile_cons, if_neg (by simpa using h), List.cons_append]

/-- The last character of `name ++ '@' :: hex` is a hex digit, never a
slash. -/
theorem getLast_token_ne (nm : List Char) (z : Int) :
    ∀ x ∈ (nm ++ '@' :: pyHex z).getLast?, x ≠ '/' := by
  intro x hx
  rw [List.getLast?_append_of_ne_nil _ (by simp : ('@' :: pyHex z) ≠ [])] at hx
  have h2 : ('@' :: pyHex z).getLast? = (pyHex z).getLast? := by
    have e : ('@' :: pyHex z) = ['@'] ++ pyHex z := rfl
    rw [e, List.getLast?_append_of_ne_nil _ (pyHex_ne_nil z)]
  rw [h2] at hx
  exact (pyHex_clean z x (List.mem_of_mem_getLast? hx)).1

/-- The token of a node never ends in a slash. -/
theorem tokenOf_getLast_ne (n : Node) : ∀ x ∈ (tokenOf n).getLast?, x ≠ '/' := by
  intro x hx
  rw [tokenOf] at hx
  exact getLast_token_ne n.name n.start x hx

/-- Appending `/token` to anything yields a list that does not end in a
slash. -/
theorem append_tok_getLast (l : List Char) (n : Node) :
    ∀ x ∈ (l ++ '/' :: tokenOf n).getLast?, x ≠ '/' := by
  intro x hx
  rw [List.getLast?_append_of_ne_nil _ (by simp : ('/' :: tokenOf n) ≠ [])] at hx
  have h2 : ('/' :: tokenOf n).getLast? = (tokenOf n).getLast? := by
    have e : ('/' :: tokenOf n) = ['/'] ++ tokenOf n := rfl
    rw [e, List.getLast?_append_of_ne_nil _ (tokenOf_ne_nil n)]
  rw [h2] at hx
  exact tokenOf_getLast_ne n x hx

/-- After dropping every leading `c`, the head (if any) is not `c`. -/
theorem dropWhile_head_ne (c : Char) (l : List Char) :
    ∀ x ∈ (l.dropWhile (fun y => y = c)).head?, x ≠ c := by
  induction l with
  | nil => intro x hx; simp at hx
  | cons a l ih =>
    intro x hx
    rw [List.dropWhile_cons] at hx
    by_cases h : a = c
    · rw [if_pos (by simpa using h)] at hx
      exact ih x hx
    · rw [if_neg (by simpa using h)] at hx
      simp only [List.head?_cons, Option.mem_def, Option.some.injEq] at hx
      subst hx
      exact h

/-- Appending a good (nonempty, slash-clean at both ends) parent id to
`/token` needs no stripping at all. -/
theorem mkId_of_goodId (pid : List Char) (n : Node) (h : GoodId pid) :
    mkId pid (tokenOf n) = pid ++ '/' :: tokenOf n := by
  rw [mkId]
  apply pyStrip_eq_self
  · intro x hx
    have h2 : pid ≠ [] ∧ (∀ x ∈ pid.head?, x ≠ '/') ∧ (∀ x ∈ pid.getLast?, x ≠ '/') := h
    cases pid with
    | nil => exact absurd rfl h2.1
    | cons a l =>
      rw [List.cons_append] at hx
      simp only [List.head?_cons, Option.mem_def, Option.some.injEq] at hx
      subst hx
      exact h2.2.1 a (by simp)
  · exact append_tok_getLast pid n

/-- With an empty parent id, `mkId` strips the leading slashes of the
name and keeps the `@hex` suffix intact. -/
theorem mkId_of_nil (n : Node) :
    mkId [] (tokenOf n)
      = n.name.dropWhile (fun x => x = '/') ++ '@' :: pyHex n.start := by
  rw [mkId, List.nil_append, tokenOf, pyStrip]
  have e1 : ('/' :: (n.name ++ '@' :: pyHex n.start)).dropWhile (fun x => x = '/')
      = n.name.dropWhile (fun x => x = '/') ++ '@' :: pyHex n.start := by
    rw [List.dropWhile_cons, if_pos (by simp), dropWhile_slash_token]
  rw [e1]
  have e2 : (n.name.dropWhile (fun x => x = '/')
        ++ '@' :: pyHex n.start).reverse.dropWhile (fun x => x = '/')
      = (n.name.dropWhile (fun x => x = '/') ++ '@' :: pyHex n.start).reverse := by
    cases hrev : (n.name.dropWhile (fun x => x = '/') ++ '@' :: pyHex n.start).reverse with
    | nil => rfl
    | cons a l2 =>
      rw [List.dropWhile_cons, if_neg]
      have hl : (n.name.dropWhile (fun x => x = '/')
          ++ '@' :: pyHex n.start).getLast? = some a := by
        rw [← List.head?_reverse, hrev]
        rfl
      simpa using getLast_token_ne (n.name.dropWhile (fun x => x = '/')) n.start a
        (by rw [hl]; rfl)
  rw [e2, List.reverse_reverse]

/-- Whatever the parent id (empty or good), the id ends with `@`
followed by the hex start. -/
theorem mkId_shape (pid : List Char) (n : Node) (h : pid = [] ∨ GoodId pid) :
    ∃ pre, mkId pid (tokenOf n) = pre ++ '@' :: pyHex n.start := by
  rcases h with rfl | h
  · exact ⟨n.name.dropWhile (fun x => x = '/'), mkId_of_nil n⟩
  · refine ⟨pid ++ '/' :: n.name, ?_⟩
    rw [mkId_of_goodId pid n h, tokenOf]
    simp

/-- The produced id is itself good, so the invariant survives one more
level of `flatten`. -/
theorem mkId_goodId (pid : List Char) (n : Node) (h : pid = [] ∨ GoodId pid) :
    GoodId (mkId pid (tokenOf n)) := by
  unfold GoodId
  rcases h with rfl | h
  · rw [mkId_of_nil n]
    refine ⟨by simp, ?_, getLast_token_ne _ n.start⟩
    intro x hx
    cases hd : n.name.dropWhile (fun x => x = '/') with
    | nil =>
      rw [hd, List.nil_append] at hx
      simp only [List.head?_cons, Option.mem_def, Option.some.injEq] at hx
      subst hx
      decide
    | cons a l =>
      rw [hd, List.cons_append] at hx
      simp only [List.head?_cons, Option.mem_def, Option.some.injEq] at hx
      subst hx
      have hdw := dropWhile_head_ne '/' n.name
      rw [hd] at hdw
      exact hdw a (by simp)
  · rw [mkId_of_goodId pid n h]
    have h2 : pid ≠ [] ∧ (∀ x ∈ pid.head?, x ≠ '/') ∧ (∀ x ∈ pid.getLast?, x ≠ '/') := h
    refine ⟨by simp, ?_, append_tok_getLast pid n⟩
    intro x hx
    cases pid with
    | nil => exact absurd rfl h2.1
    | cons a l =>
      rw [List.cons_append] at hx
      simp only [List.head?_cons, Option.mem_def, Option.some.injEq] at hx
      subst hx
      exact h2.2.1 a (by simp)

/-- Each level adds at least two characters (the separator plus a
nonempty tail) to the id. -/
theorem mkId_len (pid : List Char) (n : Node) (h : pid = [] ∨ GoodId pid) :
    pid.length + 2 ≤ (mkId pid (tokenOf n)).length := by
  rcases h with rfl | h
  · rw [mkId_of_nil n]
    have hp : 1 ≤ (pyHex n.start).length := by
      cases hpx : pyHex n.start with
      | nil => exact absurd hpx (pyHex_ne_nil n.start)
      | cons a l => simp
    simp only [List.length_append, List.length_cons, List.length_nil]
    omega
  · rw [mkId_of_goodId pid n h]
    have ht : 1 ≤ (tokenOf n).length := by
      cases htok : tokenOf n with
      | nil => exact absurd htok (tokenOf_ne_nil n)
      | cons a l => simp
    simp only [List.length_append, List.length_cons]
    omega

/-- Two ids of the `pre ++ @hex(start)` shape agree only when the starts
agree: the suffix after the last `@` is `@`-free hex. -/
theorem idShape_start_inj (pre1 pre2 : List Char) (s1 s2 : Int)
    (h : pre1 ++ '@' :: pyHex s1 = pre2 ++ '@' :: pyHex s2) : s1 = s2 := by
  have hrev := congrArg List.reverse h
  simp only [List.reverse_append, List.reverse_cons, List.append_assoc,
    List.singleton_append] at hrev
  have hsep : ∀ z : Int, '@' ∉ (pyHex z).reverse := by
    intro z hz
    exact (pyHex_clean z '@' (List.mem_reverse.mp hz)).2 rfl
  obtain ⟨e1, -⟩ := append_sep_inj '@' _ _ _ _ (hsep s1) (hsep s2) hrev
  apply pyHex_inj
  have := congrArg List.reverse e1
  simpa using this

theorem allNodes_trans (t : Node) : ∀ m ∈ allNodes t, ∀ x ∈ allNodes m, x ∈ allNodes t := by
  induction t using nodeInduction with
  | h nm st sz cs ih =>
    intro m hm x hx
    rw [allNodes] at hm ⊢
    rcases List.mem_cons.mp hm with rfl | hm
    · rw [allNodes] at hx
      exact hx
    · obtain ⟨c, hc, hmc⟩ := (mem_allNodesList cs m).mp hm
      exact List.mem_cons_of_mem _
        ((mem_allNodesList cs x).mpr ⟨c, hc, ih c hc m hmc x hx⟩)

theorem child_mem_allNodes (t : Node) :
    ∀ m ∈ allNodes t, ∀ c ∈ m.children, c ∈ allNodes t := by
  intro m hm c hc
  cases m with
  | mk nm st sz cs =>
    exact allNodes_trans t _ hm c
      (allNodes_sub nm st sz cs c hc c (self_mem_allNodes c))

/-! ### Claim C5: consequences of an empty validator result -/

theorem validateKids_eq_nil (n0 : Node) (path : List Char) :
    ∀ cs, validateKids n0 path cs = [] →
    ∀ c ∈ cs, validate_tree c (path ++ '/' :: n0.name) = [] := by
  intro cs
  induction cs with
  | nil => intro _ c hc; simp at hc
  | cons c cs2 ihl =>
    intro h c2 hc2
    rw [validateKids] at h
    obtain ⟨h1, h2⟩ := List.append_eq_nil.mp h
    obtain ⟨h3, h4⟩ := List.append_eq_nil.mp h1
    rcases List.mem_cons.mp hc2 with rfl | hc2
    · exact h4
    · exact ihl h2 c2 hc2

theorem overlapPairs_eq_nil (path : List Char) (n : Node) (kids : List Node)
    (h : overlapPairs path n kids = []) :
    ∀ ab ∈ kids.zip kids.tail, ab.1.stop ≤ ab.2.start := by
  rw [overlapPairs] at h
  intro ab hab
  have h2 := List.filterMap_eq_nil_iff.mp h ab hab
  by_cases hc : ab.2.start < ab.1.stop
  · rw [if_pos hc] at h2
    simp at h2
  · omega

/-- A tree the validator accepts has, at every node, adjacent children
with `a.end ≤ b.start`. -/
theorem validate_empty_adjacent (n : Node) :
    ∀ path, validate_tree n path = [] →
    ∀ m ∈ allNodes n, ∀ ab ∈ m.children.zip m.children.tail,
      ab.1.stop ≤ ab.2.start := by
  induction n using nodeInduction with
  | h nm st sz cs ih =>
    intro path hval m hm ab hab
    rw [validate_tree] at hval
    obtain ⟨hkids, hover⟩ := List.append_eq_nil.mp hval
    rw [allNodes] at hm
    rcases List.mem_cons.mp hm with rfl | hm
    · exact overlapPairs_eq_nil _ _ _ hover ab hab
    · obtain ⟨c, hc, hmc⟩ := (mem_allNodesList cs m).mp hm
      exact ih c hc _ (validateKids_eq_nil _ _ cs hkids c hc) m hmc ab hab

theorem validateKids_eq_nil_contain (n0 : Node) (path : List Char) :
    ∀ cs, validateKids n0 path cs = [] →
    ∀ c ∈ cs, n0.start ≤ c.start ∧ c.stop ≤ n0.stop := by
  intro cs
  induction cs with
  | nil => intro _ c hc; simp at hc
  | cons c cs2 ihl =>
    intro h c2 hc2
    rw [validateKids] at h
    obtain ⟨h1, h2⟩ := List.append_eq_nil.mp h
    obtain ⟨h3, -⟩ := List.append_eq_nil.mp h1
    rcases List.mem_cons.mp hc2 with he | hc2
    · rw [he]
      by_cases hcond : c.start < n0.start ∨ n0.stop < c.stop
      · rw [if_pos hcond] at h3
        simp at h3
      · push_neg at hcond
        exact hcond
    · exact ihl h2 c2 hc2

/-- A tree the validator accepts has every child range contained in its
parent range, at every node. -/
theorem validate_empty_contain (n : Node) :
    ∀ path, validate_tree n path = [] →
    ∀ m ∈ allNodes n, ∀ c ∈ m.children,
      m.start ≤ c.start ∧ c.stop ≤ m.stop := by
  induction n using nodeInduction with
  | h nm st sz cs ih =>
    intro path hval m hm c hc
    rw [validate_tree] at hval
    obtain ⟨hkids, -⟩ := List.append_eq_nil.mp hval
    rw [allNodes] at hm
    rcases List.mem_cons.mp hm with he | hm
    · rw [he]
      rw [he] at hc
      exact validateKids_eq_nil_contain (Node.mk nm st sz cs) path cs hkids c hc
    · obtain ⟨c0, hc0, hmc⟩ := (mem_allNodesList cs m).mp hm
      exact ih c0 hc0 _ (validateKids_eq_nil _ _ cs hkids c0 hc0) m hmc c hc

/-- Walking right from any element of a list whose adjacent pairs are
separated and whose elements have positive size only increases starts
past the first element's stop. -/
theorem sep_head_of_zip : ∀ (l : List Node) (a : Node),
    (∀ x ∈ l, 0 < x.size) →
    (∀ ab ∈ (a :: l).zip l, ab.1.stop ≤ ab.2.start) →
    ∀ b ∈ l, a.stop ≤ b.start := by
  intro l
  induction l with
  | nil => intro a _ _ b hb; simp at hb
  | cons c l2 ih =>
    intro a hsz h b hb
    have hac : a.stop ≤ c.start := by
      apply h (a, c)
      rw [List.zip_cons_cons]
      exact List.mem_cons_self _ _
    rcases List.mem_cons.mp hb with he | hb2
    · rw [he]
      exact hac
    · have hcb : c.stop ≤ b.start := by
        refine ih c (fun x hx => hsz x (List.mem_cons_of_mem _ hx)) ?_ b hb2
        intro ab hab
        apply h ab
        rw [List.zip_cons_cons]
        exact List.mem_cons_of_mem _ hab
      have hc : c.start < c.stop := by
        have hcs := hsz c (List.mem_cons_self _ _)
        rw [Node.stop]
        omega
      omega

/-- Adjacent separation plus positive sizes gives pairwise separation of
the children. -/
theorem pairwise_sep_of_zip : ∀ (l : List Node),
    (∀ x ∈ l, 0 < x.size) →
    (∀ ab ∈ l.zip l.tail, ab.1.stop ≤ ab.2.start) →
    List.Pairwise (fun a b : Node => a.stop ≤ b.start) l := by
  intro l
  induction l with
  | nil => intro _ _; exact List.Pairwise.nil
  | cons a l ih =>
    intro hsz h
    have htail : ∀ ab ∈ l.zip l.tail, ab.1.stop ≤ ab.2.start := by
      intro ab hab
      apply h ab
      rw [List.tail_cons]
      cases l with
      | nil => simp at hab
      | cons c l2 =>
        rw [List.tail_cons] at hab
        rw [List.zip_cons_cons]
        exact List.mem_cons_of_mem _ hab
    refine List.Pairwise.cons ?_ (ih (fun x hx => hsz x (List.mem_cons_of_mem _ hx)) htail)
    exact sep_head_of_zip l a (fun x hx => hsz x (List.mem_cons_of_mem _ hx))
      (by simpa using h)

/-- Sibling subtrees under separated children have disjoint id sets: the
shape invariant pins each id's start inside its own child's range. -/
theorem flattenKids_unique : ∀ (cs : List Node), (∀ c ∈ cs, FlatOk c) →
    ∀ (depth : Nat) (pid : List Char),
    pid = [] ∨ GoodId pid →
    (∀ c ∈ cs, ∀ m ∈ allNodes c, 0 < m.size) →
    (∀ c ∈ cs, ∀ m ∈ allNodes c, ∀ x ∈ m.children,
      m.start ≤ x.start ∧ x.stop ≤ m.stop) →
    (∀ c ∈ cs, ∀ m ∈ allNodes c, ∀ ab ∈ m.children.zip m.children.tail,
      ab.1.stop ≤ ab.2.start) →
    List.Pairwise (fun a b : Node => a.stop ≤ b.start) cs →
    ((flattenKids cs depth pid).map (fun f => f.id)).Nodup ∧
    ∀ f ∈ flattenKids cs depth pid, ∃ c ∈ cs, FlatInv pid c.start c.stop f := by
  intro cs
  induction cs with
  | nil =>
    intro _ depth pid _ _ _ _ _
    constructor
    · rw [flattenKids]
      simp
    · intro f hf
      rw [flattenKids] at hf
      simp at hf
  | cons c cs2 ih =>
    intro hok depth pid hpid hpos hcont hadj hpw
    have hC := hok c (List.mem_cons_self _ _) depth pid hpid
      (hpos c (List.mem_cons_self _ _)) (hcont c (List.mem_cons_self _ _))
      (hadj c (List.mem_cons_self _ _))
    have hR := ih (fun x hx => hok x (List.mem_cons_of_mem _ hx)) depth pid hpid
      (fun x hx => hpos x (List.mem_cons_of_mem _ hx))
      (fun x hx => hcont x (List.mem_cons_of_mem _ hx))
      (fun x hx => hadj x (List.mem_cons_of_mem _ hx))
      (List.pairwise_cons.mp hpw).2
    have hsep := (List.pairwise_cons.mp hpw).1
    rw [flattenKids]
    constructor
    · rw [List.map_append, List.nodup_append]
      refine ⟨hC.1, hR.1, ?_⟩
      intro v h1 h2
      obtain ⟨f1, hf1, e1⟩ := List.mem_map.mp h1
      obtain ⟨f2, hf2, e2⟩ := List.mem_map.mp h2
      have e1b : f1.id = v := e1
      have e2b : f2.id = v := e2
      have hi1 := hC.2 f1 hf1
      obtain ⟨c2, hc2, hi2⟩ := hR.2 f2 hf2
      unfold FlatInv at hi1 hi2
      obtain ⟨-, ⟨p1, hs1⟩, -, hb1⟩ := hi1
      obtain ⟨-, ⟨p2, hs2⟩, hb2, -⟩ := hi2
      have hveq : f1.id = f2.id := by rw [e1b, e2b]
      have hstart : f1.start = f2.start := by
        apply idShape_start_inj p1 p2
        rw [← hs1, ← hs2]
        exact hveq
      have hsc := hsep c2 hc2
      omega
    · intro f hf
      rcases List.mem_append.mp hf with hf | hf
      · exact ⟨c, List.mem_cons_self _ _, hC.2 f hf⟩
      · obtain ⟨c2, hc2, hi⟩ := hR.2 f hf
        exact ⟨c2, List.mem_cons_of_mem _ hc2, hi⟩

/-- Main induction: every tree satisfies the uniqueness-and-invariant
statement `FlatOk`. -/
theorem flatten_unique : ∀ (n : Node), FlatOk n := by
  intro n
  induction n using nodeInduction with
  | h nm st sz cs ih =>
    unfold FlatOk
    intro depth pid hpid hpos hcont hadj
    have hself := self_mem_allNodes (Node.mk nm st sz cs)
    have hgood := mkId_goodId pid (Node.mk nm st sz cs) hpid
    have hlen := mkId_len pid (Node.mk nm st sz cs) hpid
    have hshape := mkId_shape pid (Node.mk nm st sz cs) hpid
    have hposc : ∀ c ∈ cs, ∀ m ∈ allNodes c, 0 < m.size :=
      fun c hc m hm => hpos m (allNodes_sub nm st sz cs c hc m hm)
    have hcontc : ∀ c ∈ cs, ∀ m ∈ allNodes c, ∀ x ∈ m.children,
        m.start ≤ x.start ∧ x.stop ≤ m.stop :=
      fun c hc m hm => hcont m (allNodes_sub nm st sz cs c hc m hm)
    have hadjc : ∀ c ∈ cs, ∀ m ∈ allNodes c, ∀ ab ∈ m.children.zip m.children.tail,
        ab.1.stop ≤ ab.2.start :=
      fun c hc m hm => hadj m (allNodes_sub nm st sz cs c hc m hm)
    have hposcs : ∀ x ∈ cs, 0 < x.size :=
      fun x hx => hposc x hx x (self_mem_allNodes x)
    have hadjcs : ∀ ab ∈ cs.zip cs.tail, ab.1.stop ≤ ab.2.start := by
      have h0 := hadj (Node.mk nm st sz cs) hself
      simp only [Node.children] at h0
      exact h0
    have hpw := pairwise_sep_of_zip cs hposcs hadjcs
    have hK := flattenKids_unique cs (fun c hc => ih c hc) (depth + 1)
      (mkId pid (tokenOf (Node.mk nm st sz cs))) (Or.inr hgood) hposc hcontc hadjc hpw
    have hcc : ∀ c ∈ cs, st ≤ c.start ∧ c.start + c.size ≤ st + sz := by
      intro c hc
      have h0 := hcont (Node.mk nm st sz cs) hself c hc
      unfold Node.stop at h0
      simp only [Node.start, Node.size] at h0
      exact h0
    have hszpos : 0 < sz := by
      have h0 := hpos (Node.mk nm st sz cs) hself
      simp only [Node.size] at h0
      exact h0
    rw [flatten]
    constructor
    · rw [List.map_cons, List.nodup_cons]
      refine ⟨?_, hK.1⟩
      intro hmem
      obtain ⟨f, hf, hfid⟩ := List.mem_map.mp hmem
      obtain ⟨c2, hc2, hinv⟩ := hK.2 f hf
      unfold FlatInv at hinv
      have h1 := hinv.1
      have hfid2 : f.id = mkId pid (tokenOf (Node.mk nm st sz cs)) := hfid
      have h2 := congrArg List.length hfid2
      omega
    · intro f hf
      rcases List.mem_cons.mp hf with he | hf
      · rw [he]
        unfold FlatInv
        obtain ⟨pre, hpre⟩ := hshape
        refine ⟨hlen, ⟨pre, hpre⟩, le_rfl, ?_⟩
        show st < st + sz
        omega
      · obtain ⟨c2, hc2, hinv⟩ := hK.2 f hf
        unfold FlatInv at hinv ⊢
        obtain ⟨hl, hs, hba, hbb⟩ := hinv
        rw [Node.stop] at hbb
        have hcb := hcc c2 hc2
        refine ⟨by omega, hs, ?_, ?_⟩
        · show st ≤ f.start
          omega
        · show f.start < st + sz
          omega

/-- Claim C5 (amended): for every tree the validator accepts in which
every node has positive size, the ids `flatten` produces are pairwise
distinct — for arbitrary names.  The original claim fails without the
positive-size requirement: two siblings may share a start when the first
has size 0 (`a.end > b.start` is then not triggered), making their
name+start tokens — and hence their full ids — collide (see the
counterexample). -/
theorem claimC5_unique_ids (t : Node)
    (hval : validate_tree t ("root").toList = [])
    (hpos : ∀ m ∈ allNodes t, 0 < m.size) :
    ((flatten t 0 []).map (fun f => f.id)).Nodup :=
  (flatten_unique t 0 [] (Or.inl rfl) hpos
    (validate_empty_contain t _ hval)
    (validate_empty_adjacent t _ hval)).1

/-- Counterexample to C5 as stated: the validator accepts two siblings
`A@5` (size 0) and `A@5` (size 3) — `a.end > b.start` is `5 > 5`, false —
yet their flattened ids collide (`root@0x0/A@0x5` twice). -/
theorem claimC5_counterexample :
    validate_tree
        (Node.mk ("root").toList 0 10
          [Node.mk ("A").toList 5 0 [], Node.mk ("A").toList 5 3 []])
        ("root").toList = [] ∧
    ¬ ((flatten
        (Node.mk ("root").toList 0 10
          [Node.mk ("A").toList 5 0 [], Node.mk ("A").toList 5 3 []]) 0 []).map
          (fun f => f.id)).Nodup := by
  constructor
  · decide
  · decide

/-- Witness for C5: a validated tree with positive sizes has
pairwise-distinct flattened ids. -/
theorem claimC5_witness :
    (validate_tree
        (Node.mk ("root").toList 0 10
          [Node.mk ("A").toList 0 4 [], Node.mk ("B").toList 5 4 []])
        ("root").toList = []) ∧
    ((flatten
        (Node.mk ("root").toList 0 10
          [Node.mk ("A").toList 0 4 [], Node.mk ("B").toList 5 4 []]) 0 []).map
          (fun f => f.id)).Nodup :=
  ⟨by decide,
    claimC5_unique_ids
      (Node.mk ("root").toList 0 10
        [Node.mk ("A").toList 0 4 [], Node.mk ("B").toList 5 4 []])
      (by decide) (by decide)⟩

/-! ### Claim C7: the expand/collapse round trip -/

/-- Claim C7: for every drillable block whose first layout remembered a
positive `baseHeight`, expanding (which materialises nested content and
does not touch the stored base) and then collapsing restores the extent
to exactly that `baseHeight` and removes all nested layout state; the
same holds through `collapseTopSliceKeepInner`, and for a freshly
laid-out block the round trip reproduces the block exactly. -/
theorem claimC7_expand_collapse_roundtrip (b : Block) (nested : List Block) (v : Int)
    (hbase : b.baseH = some v) (hv : 0 < v) :
    collapseClick (expandClick b nested) = Block.mk (some v) v false true true [] ∧
    collapseTopSliceKeepInner (expandClick b nested)
      = Block.mk (some v) v false true true [] ∧
    (∀ nested2, collapseClick (expandClick (newBlock v) nested2) = newBlock v) := by
  cases b with
  | mk b0 h e l s i =>
    rw [Block.baseH] at hbase
    subst hbase
    refine ⟨?_, ?_, ?_⟩
    · rw [expandClick, collapseClick, getBaseHeight]
      simp [hv]
    · rw [expandClick, collapseTopSliceKeepInner, getBaseHeight]
      simp [hv]
      omega
    · intro nested2
      rw [newBlock, rememberBaseHeight, if_pos rfl, expandClick, collapseClick,
        getBaseHeight]
      simp [hv]

/-- Witness for C7 at the compact-layout constant 44 px. -/
theorem claimC7_witness :
    (newBlock 44).baseH = some 44 ∧
    (collapseClick (expandClick (newBlock 44) [newBlock 44])
        = Block.mk (some 44) 44 false true true [] ∧
      collapseTopSliceKeepInner (expandClick (newBlock 44) [newBlock 44])
        = Block.mk (some 44) 44 false true true [] ∧
      (∀ nested2, collapseClick (expandClick (newBlock 44) nested2) = newBlock 44)) :=
  ⟨rfl, claimC7_expand_collapse_roundtrip (newBlock 44) [newBlock 44] 44 rfl (by decide)⟩

/-! ### Claim C8: boundary marker deduplication and ordering -/

theorem insertB_perm (b : Boundary) : ∀ l, List.Perm (insertB b l) (b :: l) := by
  intro l
  induction l with
  | nil => simp [insertB]
  | cons c cs ih =>
    rw [insertB]
    by_cases h : b.y ≤ c.y
    · rw [if_pos h]
    · rw [if_neg h]
      exact (ih.cons c).trans (List.Perm.swap b c cs)

theorem sortB_perm : ∀ l, List.Perm (sortB l) l := by
  intro l
  induction l with
  | nil => simp [sortB]
  | cons b bs ih =>
    rw [sortB]
    exact (insertB_perm b (sortB bs)).trans (ih.cons b)

theorem insertB_sorted (b : Boundary) :
    ∀ l, List.Sorted (fun a c : Boundary => a.y ≤ c.y) l →
    List.Sorted (fun a c : Boundary => a.y ≤ c.y) (insertB b l) := by
  intro l
  induction l with
  | nil => intro _; simp [insertB]
  | cons c cs ih =>
    intro hs
    obtain ⟨hc, hcs⟩ := List.pairwise_cons.mp hs
    rw [insertB]
    by_cases h : b.y ≤ c.y
    · rw [if_pos h]
      refine List.pairwise_cons.mpr ⟨?_, hs⟩
      intro x hx
      rcases List.mem_cons.mp hx with rfl | hx
      · exact h
      · exact le_trans h (hc x hx)
    · rw [if_neg h]
      have hcb : c.y ≤ b.y := le_of_not_le h
      refine List.pairwise_cons.mpr ⟨?_, ih hcs⟩
      intro x hx
      have hx2 := (insertB_perm b cs).mem_iff.mp hx
      rcases List.mem_cons.mp hx2 with rfl | hx2
      · exact hcb
      · exact hc x hx2

theorem sortB_sorted : ∀ l, List.Sorted (fun a c : Boundary => a.y ≤ c.y) (sortB l) := by
  intro l
  induction l with
  | nil => simp [sortB]
  | cons b bs ih =>
    rw [sortB]
    exact insertB_sorted b (sortB bs) ih

theorem dedupByKey_not_in_seen : ∀ (bs : List Boundary) (seen : List Int),
    ∀ b ∈ dedupByKey seen bs, yKey b.y ∉ seen := by
  intro bs
  induction bs with
  | nil => intro seen b hb; rw [dedupByKey] at hb; simp at hb
  | cons b0 bs ih =>
    intro seen b hb
    rw [dedupByKey] at hb
    by_cases h : yKey b0.y ∈ seen
    · rw [if_pos h] at hb
      exact ih seen b hb
    · rw [if_neg h] at hb
      rcases List.mem_cons.mp hb with rfl | hb
      · exact h
      · have := ih _ b hb
        exact fun hc => this (List.mem_cons_of_mem _ hc)

theorem dedupByKey_keys_nodup : ∀ (bs : List Boundary) (seen : List Int),
    ((dedupByKey seen bs).map (fun b => yKey b.y)).Nodup := by
  intro bs
  induction bs with
  | nil => intro seen; rw [dedupByKey]; simp
  | cons b0 bs ih =>
    intro seen
    rw [dedupByKey]
    by_cases h : yKey b0.y ∈ seen
    · rw [if_pos h]
      exact ih seen
    · rw [if_neg h]
      rw [List.map_cons, List.nodup_cons]
      constructor
      · intro hmem
        obtain ⟨c, hc, hkey⟩ := List.mem_map.mp hmem
        have := dedupByKey_not_in_seen bs _ c hc
        exact this (hkey ▸ List.mem_cons_self _ _)
      · exact ih _

theorem dedupByKey_covers : ∀ (bs : List Boundary) (seen : List Int),
    ∀ b ∈ bs, yKey b.y ∉ seen →
    ∃ c ∈ dedupByKey seen bs, yKey c.y = yKey b.y := by
  intro bs
  induction bs with
  | nil => intro seen b hb; simp at hb
  | cons b0 bs ih =>
    intro seen b hb hbs
    rw [dedupByKey]
    by_cases h : yKey b0.y ∈ seen
    · rw [if_pos h]
      rcases List.mem_cons.mp hb with rfl | hb
      · exact absurd h hbs
      · exact ih seen b hb hbs
    · rw [if_neg h]
      rcases List.mem_cons.mp hb with rfl | hb
      · exact ⟨b, List.mem_cons_self _ _, rfl⟩
      · by_cases hk : yKey b.y = yKey b0.y
        · exact ⟨b0, List.mem_cons_self _ _, hk.symm⟩
        · obtain ⟨c, hc, hkey⟩ := ih (yKey b0.y :: seen) b hb
            (by simp [hbs, hk])
          exact ⟨c, List.mem_cons_of_mem _ hc, hkey⟩

theorem dedupByKey_first : ∀ (bs : List Boundary) (seen : List Int),
    ∀ c ∈ dedupByKey seen bs,
    ∃ l1 l2, bs = l1 ++ c :: l2 ∧ ∀ x ∈ l1, yKey x.y ≠ yKey c.y := by
  intro bs
  induction bs with
  | nil => intro seen c hc; rw [dedupByKey] at hc; simp at hc
  | cons b0 bs ih =>
    intro seen c hc
    rw [dedupByKey] at hc
    by_cases h : yKey b0.y ∈ seen
    · rw [if_pos h] at hc
      obtain ⟨l1, l2, he, hne⟩ := ih seen c hc
      refine ⟨b0 :: l1, l2, by simp [he], ?_⟩
      intro x hx
      rcases List.mem_cons.mp hx with rfl | hx
      · have := dedupByKey_not_in_seen bs seen c hc
        exact fun hk => this (hk ▸ h)
      · exact hne x hx
    · rw [if_neg h] at hc
      rcases List.mem_cons.mp hc with rfl | hc
      · exact ⟨[], bs, rfl, by simp⟩
      · obtain ⟨l1, l2, he, hne⟩ := ih _ c hc
        refine ⟨b0 :: l1, l2, by simp [he], ?_⟩
        intro x hx
        rcases List.mem_cons.mp hx with rfl | hx
        · have := dedupByKey_not_in_seen bs _ c hc
          intro hk
          exact this (hk ▸ List.mem_cons_self _ _)
        · exact hne x hx

/-- Claim C8: for every boundary list, the marker pipeline (shared by
`renderOuterBoundaryLayer` and `renderInnerLaneMarkers`) deduplicates
boundaries whose positions round to the same integer unit keeping the
first-seen entry per rounded position, and its output is sorted by
position ascending: the output is sorted by `y`, its rounded keys are
pairwise distinct, every input boundary is represented by an output
entry with its rounded key, and every output entry is the first input
entry carrying its rounded key. -/
theorem claimC8_dedup_sorted (bs : List Boundary) :
    List.Sorted (fun a c : Boundary => a.y ≤ c.y) (renderBoundaries bs) ∧
    ((renderBoundaries bs).map (fun b => yKey b.y)).Nodup ∧
    (∀ b ∈ bs, ∃ c ∈ renderBoundaries bs, yKey c.y = yKey b.y) ∧
    (∀ c ∈ renderBoundaries bs,
      ∃ l1 l2, bs = l1 ++ c :: l2 ∧ ∀ x ∈ l1, yKey x.y ≠ yKey c.y) := by
  have hperm : List.Perm (renderBoundaries bs) (dedupByKey [] bs) :=
    sortB_perm (dedupByKey [] bs)
  refine ⟨sortB_sorted _, ?_, ?_, ?_⟩
  · have := dedupByKey_keys_nodup bs []
    exact ((hperm.map (fun b => yKey b.y)).nodup_iff).mpr this
  · intro b hb
    obtain ⟨c, hc, hkey⟩ := dedupByKey_covers bs [] b hb (by simp)
    exact ⟨c, hperm.mem_iff.mpr hc, hkey⟩
  · intro c hc
    exact dedupByKey_first bs [] c (hperm.mem_iff.mp hc)

end MemMap
